import Mathlib

/-!
Verification of the flowchart-generation core of the vsextension-flow-chart
repository.  The TypeScript sources `src/extension.ts` and
`src/generateFlow.ts` are shallowly embedded below: strings are Lean
`String`s (manipulated through their underlying `List Char`), JavaScript
`Map`s become insertion-ordered association lists, JavaScript `Set`s become
insertion-ordered duplicate-free lists, the regular-expression scans of
`extractImportsAndSymbols` are embedded through a small backtracking
matcher with JavaScript `exec` semantics, and the filesystem consulted by
`resolveImport` is an explicit parameter (an `FS` value giving the results
of `fs.existsSync` and `fs.statSync`, the latter allowed to fail, mirroring
exceptions).  The rendered Mermaid text is produced line by line; lines are
kept as a structured list (`Line`) whose `renderLine` serialization matches
the string templates of the sources, and the final output is their
concatenation.
-/

set_option maxHeartbeats 1000000

namespace FlowChart

/-! ## Definitions: sanitizer -/

/-- Characters kept by the sanitizer character class `[a-zA-Z0-9_]` of
`makeId` (`src/extension.ts` line 50, `src/generateFlow.ts` line 83). -/
def wordChar (c : Char) : Bool :=
  decide (97 ≤ c.toNat ∧ c.toNat ≤ 122) ||
  decide (65 ≤ c.toNat ∧ c.toNat ≤ 90) ||
  decide (48 ≤ c.toNat ∧ c.toNat ≤ 57) ||
  c == '_'

/-- Embedding of `makeId` from the sources:
`s.replace(/[^a-zA-Z0-9_]/g, '_').replace(/^_+/, '')`.
The first replacement maps every non-word character to an underscore; the
second, anchored at the start, removes the leading run of underscores. -/
def makeId (s : String) : String :=
  String.mk ((s.data.map (fun c => if wordChar c then c else '_')).dropWhile (fun c => c == '_'))

/-! ## Definitions: a backtracking regular-expression matcher with JavaScript exec semantics

The four regex literals of `extractImportsAndSymbols` are embedded as
abstract syntax trees.  `mmatch` enumerates, in backtracking priority
order (greedy quantifiers longest-first, leftmost alternative first),
the candidate matches at a fixed position; `execAll` mirrors the
`while ((m = re.exec(content)) !== null)` loops: it repeatedly finds the
earliest position admitting a match, records the capture groups, and
resumes after the matched text.  None of the embedded regexes can match
the empty string, so the empty-match case (on which a JavaScript global
exec loop would not terminate) is unreachable and modelled as a stop. -/

/-- Capture-group environment: group index to captured characters. -/
abbrev Caps := List (Nat × List Char)

def setCap (caps : Caps) (i : Nat) (v : List Char) : Caps :=
  match caps with
  | [] => [(i, v)]
  | (j, w) :: rest => if j = i then (i, v) :: rest else (j, w) :: setCap rest i v

def getCap (caps : Caps) (i : Nat) : Option (List Char) :=
  match caps with
  | [] => none
  | (j, w) :: rest => if j = i then some w else getCap rest i

/-- Regex abstract syntax.  Quantifiers are only ever applied to character
classes in the source regexes, which is all this embedding supports. -/
inductive RE where
  | eps : RE
  | cls (f : Char → Bool) : RE
  | seq (a b : RE) : RE
  | alt (a b : RE) : RE
  | opt (a : RE) : RE
  | star (f : Char → Bool) : RE
  | plus (f : Char → Bool) : RE
  | grp (i : Nat) (a : RE) : RE

/-- Suffixes remaining after consuming a greedy run of class characters,
longest run first (the backtracking order of a greedy quantifier). -/
def greedySplits (f : Char → Bool) : List Char → List (List Char)
  | [] => [[]]
  | c :: rest => if f c then greedySplits f rest ++ [c :: rest] else [c :: rest]

/-- All candidate matches of a regex at the start of `s`, as pairs of the
remaining suffix and the capture environment, in backtracking priority
order: the head is the match a backtracking engine reports. -/
def mmatch : RE → List Char → Caps → List (List Char × Caps)
  | .eps, s, caps => [(s, caps)]
  | .cls f, s, caps =>
      match s with
      | [] => []
      | c :: rest => if f c then [(rest, caps)] else []
  | .seq a b, s, caps => (mmatch a s caps).flatMap (fun p => mmatch b p.1 p.2)
  | .alt a b, s, caps => mmatch a s caps ++ mmatch b s caps
  | .opt a, s, caps => mmatch a s caps ++ [(s, caps)]
  | .star f, s, caps => (greedySplits f s).map (fun r => (r, caps))
  | .plus f, s, caps =>
      match s with
      | [] => []
      | c :: rest => if f c then (greedySplits f rest).map (fun r => (r, caps)) else []
  | .grp i a, s, caps =>
      (mmatch a s caps).map (fun p => (p.1, setCap p.2 i (s.take (s.length - p.1.length))))

/-- Global exec loop: scan left to right; on a match at character position
`pos`, record `(pos, captures)` and resume after the matched text; on
failure advance one character.  Fuel `s.length + 1` always suffices since
every step consumes at least one character. -/
def execAllAux (re : RE) : Nat → List Char → Nat → List (Nat × Caps)
  | 0, _, _ => []
  | fuel + 1, s, pos =>
      ((mmatch re s []).head?).elim
        (match s with
         | [] => []
         | _ :: rest => execAllAux re fuel rest (pos + 1))
        (fun p =>
          if s.length - p.1.length = 0 then []
          else (pos, p.2) :: execAllAux re fuel p.1 (pos + (s.length - p.1.length)))

def execAll (re : RE) (s : List Char) : List (Nat × Caps) :=
  execAllAux re (s.length + 1) s 0

/-- Literal string regex. -/
def lit (s : String) : RE :=
  s.data.foldr (fun c r => RE.seq (RE.cls (fun d => d == c)) r) RE.eps

/-- Concatenation of a list of regexes. -/
def cat (l : List RE) : RE := l.foldr RE.seq RE.eps

/-- JavaScript whitespace class backslash-s. -/
def jsSpace (c : Char) : Bool :=
  c.toNat == 9 || c.toNat == 10 || c.toNat == 11 || c.toNat == 12 || c.toNat == 13 ||
  c.toNat == 32 || c.toNat == 160 || c.toNat == 0x1680 ||
  (decide (0x2000 ≤ c.toNat) && decide (c.toNat ≤ 0x200A)) ||
  c.toNat == 0x2028 || c.toNat == 0x2029 || c.toNat == 0x202F ||
  c.toNat == 0x205F || c.toNat == 0x3000 || c.toNat == 0xFEFF

def isQuote (c : Char) : Bool := c == '\'' || c == '"'

def notQuote (c : Char) : Bool := !(c == '\'' || c == '"')

def notQuoteSemi (c : Char) : Bool := !(c == '\'' || c == '"' || c == ';')

/-- Embedding of the regex literal matching import statements from the
sources (both files, identical text). -/
def importRe : RE :=
  cat [lit "import", .plus jsSpace,
       .opt (cat [.plus notQuoteSemi, lit "from", .plus jsSpace]),
       .cls isQuote, .grp 1 (.plus notQuote), .cls isQuote, .opt (.cls (fun c => c == ';'))]

/-- Embedding of the regex matching require call expressions. -/
def requireRe : RE :=
  cat [lit "require(", .cls isQuote, .grp 1 (.plus notQuote), .cls isQuote,
       .cls (fun c => c == ')')]

/-- Embedding of the regex matching function declarations and
const arrow-function bindings. -/
def functionRe : RE :=
  .alt (cat [lit "function", .plus jsSpace, .grp 1 (.plus wordChar), .star jsSpace,
             .cls (fun c => c == '(')])
       (cat [lit "const", .plus jsSpace, .grp 2 (.plus wordChar), .star jsSpace,
             .cls (fun c => c == '='), .star jsSpace, .opt (.cls (fun c => c == '(')),
             .star jsSpace, .opt (.cls (fun c => c == ')')), .star jsSpace, lit "=>"])

/-- Embedding of the regex matching class declarations. -/
def classRe : RE :=
  cat [lit "class", .plus jsSpace, .grp 1 (.plus wordChar)]

structure ExtractionResult where
  imports : List String
  functions : List String
  classes : List String
deriving DecidableEq

/-- Capture value as a truthy JavaScript string: undefined and the empty
string are both falsy. -/
def truthyCap (caps : Caps) (i : Nat) : Option (List Char) :=
  match getCap caps i with
  | some v => if v = [] then none else some v
  | none => none

/-- Models the statement: name is group one or else group two, pushed only
when truthy. -/
def functionName (caps : Caps) : Option String :=
  ((truthyCap caps 1).orElse (fun _ => truthyCap caps 2)).map String.mk

/-- Embedding of `extractImportsAndSymbols` from the sources: the import
scan runs first and appends every captured module path in match order,
then the require scan appends its captures, then the independent function
and class scans run. -/
def extractImportsAndSymbols (content : String) : ExtractionResult :=
  { imports :=
      (execAll importRe content.data).filterMap (fun m => (getCap m.2 1).map String.mk) ++
      (execAll requireRe content.data).filterMap (fun m => (getCap m.2 1).map String.mk)
    functions := (execAll functionRe content.data).filterMap (fun m => functionName m.2)
    classes := (execAll classRe content.data).filterMap (fun m => (getCap m.2 1).map String.mk) }

/-! ## Definitions: path model

POSIX-style model of the Node `path` operations the sources use
(`path.resolve`, `path.dirname`, `path.join`, `path.basename`).  Paths are
split at slashes and normalized with the usual dot and dot-dot segment
handling; a current working directory is supplied by the filesystem model
for the cases where Node would consult `process.cwd()`. -/

def splitSlashAux (cur : List Char) : List Char → List String
  | [] => [String.mk cur.reverse]
  | c :: rest =>
      if c = '/' then String.mk cur.reverse :: splitSlashAux [] rest
      else splitSlashAux (c :: cur) rest

/-- Split a path into its slash-separated segments. -/
def splitSlash (s : String) : List String := splitSlashAux [] s.data

/-- Normalize segments with a stack: empty and dot segments vanish, a
dot-dot segment pops (dropped at the root, as Node does for absolute
paths). -/
def normSegsAux (stack : List String) : List String → List String
  | [] => stack.reverse
  | seg :: rest =>
      if seg = "" || seg = "." then normSegsAux stack rest
      else if seg = ".." then
        match stack with
        | [] => normSegsAux [] rest
        | _ :: t => normSegsAux t rest
      else normSegsAux (seg :: stack) rest

def joinSegs : List String → List Char
  | [] => []
  | [s] => s.data
  | s :: rest => s.data ++ '/' :: joinSegs rest

/-- Normalize a path taken to be absolute. -/
def normAbs (s : String) : String :=
  String.mk ('/' :: joinSegs (normSegsAux [] (splitSlash s)))

def headIs (s : String) (c : Char) : Bool :=
  match s.data with
  | [] => false
  | d :: _ => d == c

/-- Model of `path.resolve(dir, rel)`. -/
def pathResolve (cwd dir rel : String) : String :=
  if headIs rel '/' then normAbs rel
  else if headIs dir '/' then normAbs (dir ++ "/" ++ rel)
  else normAbs (cwd ++ "/" ++ dir ++ "/" ++ rel)

/-- Model of single-argument `path.resolve(p)`. -/
def pathResolveOne (cwd p : String) : String :=
  if headIs p '/' then normAbs p else normAbs (cwd ++ "/" ++ p)

/-- Model of `path.join(a, b)`. -/
def pathJoin (a b : String) : String :=
  if headIs a '/' then normAbs (a ++ "/" ++ b)
  else String.mk (joinSegs (normSegsAux [] (splitSlash (a ++ "/" ++ b))))

/-- Model of `path.dirname`. -/
def dirname (p : String) : String :=
  match splitSlash p with
  | [] => "."
  | [_] => "."
  | parts =>
      let init := parts.dropLast
      if init.all (fun s => s == "") then "/" else String.mk (joinSegs init)

/-- Model of `path.basename`. -/
def basename (p : String) : String :=
  match (splitSlash p).reverse with
  | [] => ""
  | "" :: s :: _ => s
  | s :: _ => s

/-! ## Definitions: filesystem model and the import resolver

`fs.existsSync` never throws in Node (it reports false on error), so it is
total; `fs.statSync` may throw, modelled as `Except`.  The resolver of
`src/extension.ts` wraps each probe in try/catch and skips a throwing
candidate; the copy in `src/generateFlow.ts` has no try/catch, so a
throwing `statSync` propagates. -/

structure Stat where
  isFile : Bool
deriving DecidableEq

structure FS where
  cwd : String
  existsb : String → Bool
  stat : String → Except String Stat

/-- The candidate list probed by `resolveImport`, in source order: the
exact resolved path, the four extension suffixes, then the two directory
index files. -/
def importCandidates (fs : FS) (fromFile imp : String) : List String :=
  let base := pathResolve fs.cwd (dirname fromFile) imp
  [base, base ++ ".ts", base ++ ".js", base ++ ".tsx", base ++ ".jsx",
   pathJoin base "index.ts", pathJoin base "index.js"]

/-- The guard `imp.startsWith('.') || imp.startsWith('/')`. -/
def isRelOrAbs (imp : String) : Bool := headIs imp '.' || headIs imp '/'

/-- Probe loop of `resolveImport` in `src/extension.ts`: each probe sits in
a try block whose catch ignores the error and continues with the next
candidate. -/
def probeLoop (fs : FS) : List String → Option String
  | [] => none
  | c :: rest =>
      if fs.existsb c then
        match fs.stat c with
        | .ok st => if st.isFile then some (pathResolveOne fs.cwd c) else probeLoop fs rest
        | .error _ => probeLoop fs rest
      else probeLoop fs rest

/-- Embedding of `resolveImport` from `src/extension.ts`. -/
def resolveImport (fs : FS) (fromFile imp : String) : Option String :=
  if isRelOrAbs imp then probeLoop fs (importCandidates fs fromFile imp) else none

/-- Probe loop of `resolveImport` in `src/generateFlow.ts`: no try/catch,
so an error from `statSync` propagates to the caller. -/
def probeLoopGF (fs : FS) : List String → Except String (Option String)
  | [] => .ok none
  | c :: rest =>
      if fs.existsb c then
        match fs.stat c with
        | .ok st =>
            if st.isFile then .ok (some (pathResolveOne fs.cwd c)) else probeLoopGF fs rest
        | .error e => .error e
      else probeLoopGF fs rest

/-- Embedding of `resolveImport` from `src/generateFlow.ts`. -/
def resolveImportGF (fs : FS) (fromFile imp : String) : Except String (Option String) :=
  if isRelOrAbs imp then probeLoopGF fs (importCandidates fs fromFile imp) else .ok none

/-- A candidate passes a probe when it exists, its stat succeeds and
reports a regular file. -/
def probeOk (fs : FS) (c : String) : Bool :=
  fs.existsb c &&
    (match fs.stat c with
     | .ok st => st.isFile
     | .error _ => false)

/-! ## Definitions: association maps and sets with JavaScript semantics

`setA` updates the first entry with the key in place (JavaScript `Map.set`
keeps the original insertion position) and appends new keys; iteration
order is list order, matching JavaScript insertion-order iteration.
`addOnce` models `Set.add`. -/

abbrev DegMap := List (String × Int)

abbrev AdjMap := List (String × List String)

def getA {β : Type} : List (String × β) → String → Option β
  | [], _ => none
  | (k', v) :: rest, k => if k' = k then some v else getA rest k

def setA {β : Type} : List (String × β) → String → β → List (String × β)
  | [], k, v => [(k, v)]
  | (k', v') :: rest, k, v =>
      if k' = k then (k, v) :: rest else (k', v') :: setA rest k v

/-- Models `map.get(k) || 0`: a missing key reads as zero (a stored zero
also reads as zero, and any other stored value as itself). -/
def getD (m : DegMap) (k : String) : Int := (getA m k).getD 0

def hasA {β : Type} (m : List (String × β)) (k : String) : Bool := (getA m k).isSome

def keysOf {β : Type} (m : List (String × β)) : List String := m.map Prod.fst

/-- JavaScript `Set.add` on an insertion-ordered list. -/
def addOnce (l : List String) (x : String) : List String :=
  if x ∈ l then l else l ++ [x]

/-! ## Definitions: the folder-to-flowchart pipeline of src/extension.ts -/

structure FileInfo where
  path : String
  name : String
  content : String
  lineCount : Nat
deriving DecidableEq

def fileId (f : FileInfo) : String := makeId f.name

/-- A collected file together with its extraction, as in the `nodes` array. -/
structure NodeRec where
  file : FileInfo
  extr : ExtractionResult
deriving DecidableEq

def nodesOf (files : List FileInfo) : List NodeRec :=
  files.map (fun f => { file := f, extr := extractImportsAndSymbols f.content })

/-- The `byResolvedPath` map keyed by `path.resolve(n.file.path)`. -/
def byResolvedPath (fs : FS) (files : List FileInfo) : List (String × NodeRec) :=
  (nodesOf files).foldl (fun m n => setA m (pathResolveOne fs.cwd n.file.path) n) []

/-- One emitted Mermaid line, in structured form; `renderLine` below gives
the exact text appended to `mermaidCode` for each constructor. -/
inductive Line where
  | header : Line
  | subgraphOpen (id label : String) : Line
  | fnNode (id name : String) : Line
  | classNode (id name : String) : Line
  | fallbackNode (id base : String) (lineCount : Nat) : Line
  | subgraphEnd : Line
  | edge (u v : String) : Line
  | extEdge (u v label : String) : Line
  | dashed (u v : String) : Line
  | startDecl : Line
  | endDecl : Line
  | startEdge (v : String) : Line
  | endEdge (u : String) : Line
deriving DecidableEq

/-- Serialization of one structured line, following the string templates of
`convertFolderToFlowchart` verbatim (the fallback label contains a literal
backslash-n escape, as in the source). -/
def renderLine : Line → String
  | .header => "flowchart TD\n"
  | .subgraphOpen id label => "    subgraph " ++ id ++ "[" ++ label ++ "]\n"
  | .fnNode id name => "        " ++ id ++ "[\"fn: " ++ name ++ "\"]\n"
  | .classNode id name => "        " ++ id ++ "[\"class: " ++ name ++ "\"]\n"
  | .fallbackNode id base lc =>
      "        " ++ id ++ "_file[\"" ++ base ++ "\\n" ++ toString lc ++ " lines\"]\n"
  | .subgraphEnd => "    end\n"
  | .edge u v => "    " ++ u ++ " --> " ++ v ++ "\n"
  | .extEdge u v label => "    " ++ u ++ " --> " ++ v ++ "[\"" ++ label ++ "\"]\n"
  | .dashed u v => "    " ++ u ++ " -.-> " ++ v ++ "\n"
  | .startDecl => "    StartNode([Start])\n"
  | .endDecl => "    EndNode([End])\n"
  | .startEdge v => "    StartNode --> " ++ v ++ "\n"
  | .endEdge u => "    " ++ u ++ " --> EndNode\n"

/-- Subgraph block for one file: open line, up to eight function nodes, up
to eight class nodes, the fallback node when there are neither, end line. -/
def subgraphLines (n : NodeRec) : List Line :=
  let id := makeId n.file.name
  [Line.subgraphOpen id n.file.name] ++
  (n.extr.functions.take 8).map (fun fn => Line.fnNode (makeId (n.file.name ++ "_" ++ fn)) fn) ++
  (n.extr.classes.take 8).map (fun c => Line.classNode (makeId (n.file.name ++ "_" ++ c)) c) ++
  (if n.extr.functions = [] ∧ n.extr.classes = [] then
    [Line.fallbackNode id (basename n.file.name) n.file.lineCount]
   else []) ++
  [Line.subgraphEnd]

/-- State threaded through the import-edge loop: emitted edge lines, the
`adjacency`, `incoming` and `outgoing` maps. -/
structure EdgeSt where
  lines : List Line
  adj : AdjMap
  inc : DegMap
  outg : DegMap

/-- Processing of one raw import of one file, mirroring the body of the
inner `for (const imp of n.imports)` loop: a resolved import found in the
node set emits a file edge and bumps degrees; an unresolved
non-relative import emits an external edge; anything else is dropped. -/
def edgeImportStep (fs : FS) (byRes : List (String × NodeRec)) (fromId fromPath : String)
    (st : EdgeSt) (imp : String) : EdgeSt :=
  match resolveImport fs fromPath imp with
  | some resolved =>
      match getA byRes (pathResolveOne fs.cwd resolved) with
      | some target =>
          let toId := makeId target.file.name
          { lines := st.lines ++ [Line.edge fromId toId]
            adj := setA st.adj fromId (addOnce ((getA st.adj fromId).getD []) toId)
            inc := setA st.inc toId (getD st.inc toId + 1)
            outg := setA st.outg fromId (getD st.outg fromId + 1) }
      | none => st
  | none =>
      if headIs imp '.' then st
      else
        let extId := makeId ("ext_" ++ imp)
        { lines := st.lines ++ [Line.extEdge fromId extId imp]
          adj := setA st.adj fromId (addOnce ((getA st.adj fromId).getD []) extId)
          inc := st.inc
          outg := setA st.outg fromId (getD st.outg fromId + 1) }

/-- Processing of one file in the edge loop: ensure an adjacency entry,
then fold its imports. -/
def edgeNodeStep (fs : FS) (byRes : List (String × NodeRec)) (st : EdgeSt) (n : NodeRec) :
    EdgeSt :=
  let fromId := makeId n.file.name
  let st₁ := if hasA st.adj fromId then st else { st with adj := setA st.adj fromId [] }
  n.extr.imports.foldl (edgeImportStep fs byRes fromId n.file.path) st₁

/-- The degree-initialization loop: every file id gets outgoing zero and
incoming `get || 0`. -/
def degreesInit (files : List FileInfo) : DegMap × DegMap :=
  files.foldl (fun pr f =>
    let fid := makeId f.name
    (setA pr.1 fid (getD pr.1 fid), setA pr.2 fid 0)) ([], [])

/-- The whole edge loop over all files. -/
def edgePhase (fs : FS) (files : List FileInfo) : EdgeSt :=
  (nodesOf files).foldl (edgeNodeStep fs (byResolvedPath fs files))
    { lines := [], adj := [], inc := (degreesInit files).1, outg := (degreesInit files).2 }

/-- The `inDegreeMap`: a copy of `incoming` (the source writes `v || 0`,
which is the identity on integers), then every adjacency key not yet
present is set to zero. -/
def inDegreeMapOf (inc : DegMap) (adj : AdjMap) : DegMap :=
  (keysOf adj).foldl (fun m k => if hasA m k then m else setA m k 0)
    (inc.foldl (fun m p => setA m p.1 p.2) [])

/-- The seed queue: entries with degree zero and a nonempty identifier, in
map iteration order. -/
def seedsOf (m : DegMap) : List String :=
  (m.filter (fun p => p.2 == 0 && !(p.1 == ""))).map Prod.fst

/-- Decrement the in-degree of each neighbour of the popped node, pushing a
neighbour whose count reaches exactly zero. -/
def decNeighbors : List String → DegMap → List String → DegMap × List String
  | [], m, q => (m, q)
  | nb :: rest, m, q =>
      let d := getD m nb
      decNeighbors rest (setA m nb (d - 1)) (if d - 1 = 0 then q ++ [nb] else q)

/-- Kahn's-algorithm while loop.  The fuel only bounds the iteration count:
every queue element is popped once and an identifier can be enqueued at
most once (it is seeded at count zero or pushed when its strictly
decreasing count reaches zero), so `m.length + q.length + 1` iterations
always suffice to drain the queue. -/
def kahnAux (adj : AdjMap) : Nat → List String → DegMap → List String → List String
  | 0, _, _, acc => acc
  | _ + 1, [], _, acc => acc
  | fuel + 1, cur :: q, m, acc =>
      match getA adj cur with
      | none => kahnAux adj fuel q m (acc ++ [cur])
      | some ns =>
          let p := decNeighbors ns m q
          kahnAux adj fuel p.2 p.1 (acc ++ [cur])

/-- The Kahn phase of the backbone ordering. -/
def kahnOrder (fs : FS) (files : List FileInfo) : List String :=
  let st := edgePhase fs files
  let m := inDegreeMapOf st.inc st.adj
  let q := seedsOf m
  kahnAux st.adj (m.length + q.length + 1) q m []

/-- The fallback: append, in collection order, every file id not yet in the
order. -/
def fallbackAppend : List FileInfo → List String → List String
  | [], acc => acc
  | f :: rest, acc =>
      fallbackAppend rest (if makeId f.name ∈ acc then acc else acc ++ [makeId f.name])

/-- The backbone order: the Kahn result, extended by the fallback append
when it is shorter than the file count. -/
def backboneOrder (fs : FS) (files : List FileInfo) : List String :=
  let t := kahnOrder fs files
  if t.length < files.length then fallbackAppend files t else t

/-- The dashed pipeline chain over the truncated backbone. -/
def dashedLines (order : List String) : List Line :=
  let pipelineNodes := order.take (min order.length 200)
  (pipelineNodes.zip pipelineNodes.tail).map (fun p => Line.dashed p.1 p.2)

/-- Start-anchor edges: one per file whose incoming count reads as zero
(the source condition `!incoming.get(id) || incoming.get(id) === 0` is
true exactly when the map reads zero or the key is absent). -/
def startEdges (inc : DegMap) (files : List FileInfo) : List Line :=
  (nodesOf files).filterMap (fun n =>
    if getD inc (makeId n.file.name) = 0 then some (Line.startEdge (makeId n.file.name))
    else none)

/-- End-anchor edges: one per file whose outgoing count reads as zero. -/
def endEdges (outg : DegMap) (files : List FileInfo) : List Line :=
  (nodesOf files).filterMap (fun n =>
    if getD outg (makeId n.file.name) = 0 then some (Line.endEdge (makeId n.file.name))
    else none)

/-- Embedding of `convertFolderToFlowchart` as its emitted line sequence:
header, subgraph blocks, import edges, dashed backbone, anchor
declarations, start edges, end edges. -/
def mermaidLines (fs : FS) (files : List FileInfo) : List Line :=
  let st := edgePhase fs files
  [Line.header] ++ (nodesOf files).flatMap subgraphLines ++ st.lines ++
  dashedLines (backboneOrder fs files) ++ [Line.startDecl, Line.endDecl] ++
  startEdges st.inc files ++ endEdges st.outg files

/-- The rendered Mermaid text (the `folderName` parameter of the source
function is unused by its logic and omitted). -/
def convertFolderToFlowchart (fs : FS) (files : List FileInfo) : String :=
  String.join ((mermaidLines fs files).map renderLine)

/-- The per-import line emitted by the edge loop, as an optional value:
`none` for a resolved path outside the node set and for an unresolved
relative import. -/
def perImportLine (fs : FS) (byRes : List (String × NodeRec)) (fromId fromPath imp : String) :
    Option Line :=
  match resolveImport fs fromPath imp with
  | some resolved =>
      match getA byRes (pathResolveOne fs.cwd resolved) with
      | some target => some (Line.edge fromId (makeId target.file.name))
      | none => none
  | none =>
      if headIs imp '.' then none
      else some (Line.extEdge fromId (makeId ("ext_" ++ imp)) imp)

/-! ## Definitions: the generateFlow.ts pipeline

Its `main` stores each file's imports in a `Set` (insertion-ordered,
deduplicated) before `buildMermaid` renders edges, and its resolver can
propagate errors, so edge building lives in `Except`. -/

def dedupKeepOrder (l : List String) : List String := l.foldl addOnce []

structure GFFile where
  filePath : String
  relPath : String
  content : String
deriving DecidableEq

structure GFNode where
  filePath : String
  relPath : String
  imports : List String
  functions : List String
  classes : List String
deriving DecidableEq

/-- One entry of the `nodes` array of `main`: note `new Set(imports)`. -/
def gfNodeOf (f : GFFile) : GFNode :=
  let e := extractImportsAndSymbols f.content
  { filePath := f.filePath, relPath := f.relPath, imports := dedupKeepOrder e.imports
    functions := e.functions, classes := e.classes }

def gfByPath (fs : FS) (ns : List GFNode) : List (String × GFNode) :=
  ns.foldl (fun m n => setA m (pathResolveOne fs.cwd n.filePath) n) []

/-- Edge lines contributed by one node in `buildMermaid`. -/
def gfEdgeLinesForNode (fs : FS) (byPath : List (String × GFNode)) (n : GFNode) :
    Except String (List Line) :=
  n.imports.foldlM (fun acc imp => do
    let r ← resolveImportGF fs n.filePath imp
    match r with
    | some resolved =>
        match getA byPath (pathResolveOne fs.cwd resolved) with
        | some t => pure (acc ++ [Line.edge (makeId n.relPath) (makeId t.relPath)])
        | none => pure acc
    | none =>
        if headIs imp '.' then pure acc
        else pure (acc ++ [Line.extEdge (makeId n.relPath) (makeId ("ext_" ++ imp)) imp])) []

/-- Embedding of `buildMermaid` from `src/generateFlow.ts`: header, one
subgraph per file (function and class nodes only, no fallback node), then
the per-node edge lines. -/
def buildMermaidGF (fs : FS) (ns : List GFNode) : Except String (List Line) := do
  let subs := ns.flatMap (fun n =>
    [Line.subgraphOpen (makeId n.relPath) n.relPath] ++
    (n.functions.take 8).map (fun fn => Line.fnNode (makeId (n.relPath ++ "_" ++ fn)) fn) ++
    (n.classes.take 8).map (fun c => Line.classNode (makeId (n.relPath ++ "_" ++ c)) c) ++
    [Line.subgraphEnd])
  let edges ← ns.foldlM (fun acc n => do
    let e ← gfEdgeLinesForNode fs (gfByPath fs ns) n
    pure (acc ++ e)) []
  pure ([Line.header] ++ subs ++ edges)

/-! ## Definitions: concrete instances used by witnesses and counterexamples -/

/-- A concrete filesystem with exactly one regular file. -/
def fsOneB : FS :=
  { cwd := "/"
    existsb := fun p => p == "/b.ts"
    stat := fun p => if p == "/b.ts" then .ok { isFile := true } else .error "ENOENT" }

/-- A concrete filesystem on which stat throws for an existing path. -/
def fsErr : FS :=
  { cwd := "/"
    existsb := fun p => p == "/x"
    stat := fun _ => .error "EACCES" }

/-- A concrete filesystem with no files at all. -/
def fsEmpty : FS :=
  { cwd := "/", existsb := fun _ => false, stat := fun _ => .error "ENOENT" }

/-- A concrete filesystem with the two regular files of the duplicate-import
scenario. -/
def fsAB : FS :=
  { cwd := "/"
    existsb := fun p => p == "/a.ts" || p == "/b.ts"
    stat := fun p =>
      if p == "/a.ts" || p == "/b.ts" then .ok { isFile := true } else .error "ENOENT" }

/-- File `a.ts` importing `./b` twice. -/
def fileDupA : FileInfo :=
  { path := "/a.ts", name := "a.ts", content := "import \"./b\";import \"./b\";", lineCount := 1 }

/-- File `b.ts` with empty content. -/
def fileB : FileInfo :=
  { path := "/b.ts", name := "b.ts", content := "", lineCount := 1 }

/-- A file importing itself. -/
def fileSelf : FileInfo :=
  { path := "/c.ts", name := "c.ts", content := "import \"./c\";", lineCount := 1 }

/-- A concrete filesystem containing only that self-importing file. -/
def fsSelf : FS :=
  { cwd := "/"
    existsb := fun p => p == "/c.ts"
    stat := fun p => if p == "/c.ts" then .ok { isFile := true } else .error "ENOENT" }

/-- A file importing only the bare package lodash. -/
def fileLodash : FileInfo :=
  { path := "/a.ts", name := "a.ts", content := "import \"lodash\";", lineCount := 1 }

/-- A plain text file with no imports, functions or classes. -/
def fileTxt : FileInfo :=
  { path := "/e.txt", name := "e.txt", content := "hello", lineCount := 1 }

/-- GF-side version of the duplicate-import scenario. -/
def gfFileDupA : GFFile :=
  { filePath := "/a.ts", relPath := "a.ts", content := "import \"./b\";import \"./b\";" }

def gfFileB : GFFile :=
  { filePath := "/b.ts", relPath := "b.ts", content := "" }

/-- The node record built for the duplicate-import file. -/
def nodeDupA : NodeRec :=
  { file := fileDupA, extr := extractImportsAndSymbols fileDupA.content }

/-- Scenario-B pair: `a.ts` imports `./b` once, `b.ts` exists alongside. -/
def fileScA : FileInfo :=
  { path := "/a.ts", name := "a.ts", content := "import \"./b\";", lineCount := 1 }

def fileScB : FileInfo := fileB

/-- Counterexample trio for the backbone-consistency claim: `a.ts` empty,
`b.ts` imports `./a` once, `c.ts` imports `./b` twice. -/
def cexA : FileInfo :=
  { path := "/a.ts", name := "a.ts", content := "", lineCount := 1 }

def cexB : FileInfo :=
  { path := "/b.ts", name := "b.ts", content := "import \"./a\";", lineCount := 1 }

def cexC : FileInfo :=
  { path := "/c.ts", name := "c.ts", content := "import \"./b\";import \"./b\";", lineCount := 1 }

/-- A concrete filesystem with the three counterexample files. -/
def fsCex : FS :=
  { cwd := "/"
    existsb := fun p => p == "/a.ts" || p == "/b.ts" || p == "/c.ts"
    stat := fun p =>
      if p == "/a.ts" || p == "/b.ts" || p == "/c.ts" then .ok { isFile := true }
      else .error "ENOENT" }

/-- The resolved file-to-file import edges of the rendered graph, as the
ordered list of emitted edge-line endpoint pairs. -/
def importEdgePairs (fs : FS) (files : List FileInfo) : List (String × String) :=
  (edgePhase fs files).lines.filterMap (fun l =>
    match l with
    | Line.edge u v => some (u, v)
    | _ => none)

/-- The adjacency list of a node (empty when the node has no entry),
matching the reads `adjacency.get(u)` guarded by null checks. -/
def adjListOf (adj : AdjMap) (u : String) : List String := (getA adj u).getD []

/-- The predecessor keys of a node: sources of adjacency entries whose
list contains it. -/
def predKeys (adj : AdjMap) (v : String) : List String :=
  (adj.filter (fun p => v ∈ p.2)).map Prod.fst

/-- How many elements of a list are adjacency predecessors of a node. -/
def predCountIn (adj : AdjMap) (acc : List String) (v : String) : Nat :=
  (acc.filter (fun u => v ∈ adjListOf adj u)).length

/-- Bounded reachability along directed edges (at most `n` steps). -/
def reachesWithin (edges : List (String × String)) : Nat → String → String → Bool
  | 0, _, _ => false
  | n + 1, u, v =>
      edges.any (fun e => e.1 == u && (e.2 == v || reachesWithin edges n e.2 v))

/-- A directed edge list has a cycle iff some edge closes back on its own
source within as many steps as there are edges. -/
def hasCycle (edges : List (String × String)) : Bool :=
  edges.any (fun e => e.1 == e.2 || reachesWithin edges edges.length e.2 e.1)

/-! ## Sanity checks on the embedding -/

example : (extractImportsAndSymbols "import \"b\";").imports = ["b"] := by decide

example :
    (extractImportsAndSymbols "import x from 'y';\nconst f = () => 1;\nclass C {}").imports
      = ["y"] := by decide

example : makeId "a.ts" = "a_ts" := by decide

example : resolveImport fsOneB "/a.ts" "./b" = some "/b.ts" := by decide

/-! ## Proofs about makeId (claim C10) -/

lemma all_wordChar_map (l : List Char) :
    (l.map (fun c => if wordChar c then c else '_')).all wordChar = true := by
  induction l with
  | nil => rfl
  | cons c rest ih =>
    simp only [List.map_cons, List.all_cons, Bool.and_eq_true]
    refine ⟨?_, ih⟩
    by_cases h : wordChar c = true
    · rw [if_pos h]; exact h
    · rw [if_neg h]; decide

lemma all_dropWhile (p q : Char → Bool) (l : List Char) (h : l.all p = true) :
    (l.dropWhile q).all p = true := by
  induction l with
  | nil => rfl
  | cons c rest ih =>
    simp only [List.all_cons, Bool.and_eq_true] at h
    by_cases hq : q c
    · simpa [List.dropWhile, hq] using ih h.2
    · simpa [List.dropWhile, hq] using And.intro h.1 h.2

lemma head_dropWhile_ne (q : Char → Bool) (l : List Char) (c : Char)
    (h : (l.dropWhile q).head? = some c) : q c = false := by
  induction l with
  | nil => simp [List.dropWhile] at h
  | cons d rest ih =>
    by_cases hq : q d
    · exact ih (by simpa [List.dropWhile, hq] using h)
    · simp only [List.dropWhile, hq] at h
      simp only [List.head?] at h
      cases h
      simpa using hq

lemma map_id_of_all_wordChar (l : List Char) (h : l.all wordChar = true) :
    l.map (fun c => if wordChar c then c else '_') = l := by
  induction l with
  | nil => rfl
  | cons c rest ih =>
    simp only [List.all_cons, Bool.and_eq_true] at h
    simp [h.1, ih h.2]

lemma dropWhile_eq_self_of_head (q : Char → Bool) (l : List Char)
    (h : ∀ c, l.head? = some c → q c = false) : l.dropWhile q = l := by
  cases l with
  | nil => rfl
  | cons c rest =>
    have := h c rfl
    simp [List.dropWhile, this]

/-- C10: for every input string the sanitized identifier produced by
`makeId` contains only ASCII letters, digits and underscores, does not
begin with an underscore, and `makeId` is idempotent. -/
theorem c10_makeId_sanitized_idempotent (s : String) :
    (makeId s).data.all wordChar = true ∧
    (∀ c, (makeId s).data.head? = some c → c ≠ '_') ∧
    makeId (makeId s) = makeId s := by
  refine ⟨?_, ?_, ?_⟩
  · exact all_dropWhile _ _ _ (all_wordChar_map s.data)
  · intro c hc
    have := head_dropWhile_ne _ _ _ hc
    intro h
    subst h
    simp at this
  · show String.mk _ = String.mk _
    congr 1
    have hall : ((s.data.map (fun c => if wordChar c then c else '_')).dropWhile
        (fun c => c == '_')).all wordChar = true :=
      all_dropWhile _ _ _ (all_wordChar_map s.data)
    have hd : (makeId s).data =
        (s.data.map (fun c => if wordChar c then c else '_')).dropWhile (fun c => c == '_') := rfl
    rw [hd, map_id_of_all_wordChar _ hall]
    exact dropWhile_eq_self_of_head _ _ (fun c hc => by
      have := head_dropWhile_ne _ _ _ hc
      simpa using this)

/-- Witness for C10 at a concrete input with a leading underscore run and
punctuation. -/
theorem c10_makeId_witness :
    (makeId "_a-b!").data.all wordChar = true ∧
    makeId (makeId "_a-b!") = makeId "_a-b!" := by
  refine ⟨(c10_makeId_sanitized_idempotent "_a-b!").1,
    (c10_makeId_sanitized_idempotent "_a-b!").2.2⟩

/-! ## Proofs about the exec loop and extraction (claims C2 and C9) -/

lemma execAllAux_succ (re : RE) (n : Nat) (s : List Char) (pos : Nat) :
    execAllAux re (n + 1) s pos =
      ((mmatch re s []).head?).elim
        (match s with
         | [] => []
         | _ :: rest => execAllAux re n rest (pos + 1))
        (fun p =>
          if s.length - p.1.length = 0 then []
          else (pos, p.2) :: execAllAux re n p.1 (pos + (s.length - p.1.length))) := rfl

lemma execAllAux_succ_some (re : RE) (n : Nat) (s : List Char) (pos : Nat)
    (p : List Char × Caps) (hm : (mmatch re s []).head? = some p) :
    execAllAux re (n + 1) s pos =
      if s.length - p.1.length = 0 then []
      else (pos, p.2) :: execAllAux re n p.1 (pos + (s.length - p.1.length)) := by
  rw [execAllAux_succ, hm]
  rfl

lemma execAllAux_succ_none_nil (re : RE) (n : Nat) (pos : Nat)
    (hm : (mmatch re [] []).head? = none) :
    execAllAux re (n + 1) [] pos = [] := by
  rw [execAllAux_succ, hm]
  rfl

lemma execAllAux_succ_none_cons (re : RE) (n : Nat) (c : Char) (rest : List Char) (pos : Nat)
    (hm : (mmatch re (c :: rest) []).head? = none) :
    execAllAux re (n + 1) (c :: rest) pos = execAllAux re n rest (pos + 1) := by
  rw [execAllAux_succ, hm]
  rfl

lemma execAllAux_fst_ge (re : RE) :
    ∀ fuel s pos, ∀ q ∈ (execAllAux re fuel s pos).map Prod.fst, pos ≤ q := by
  intro fuel
  induction fuel with
  | zero => intro s pos q hq; simp [execAllAux] at hq
  | succ n ih =>
    intro s pos q hq
    cases hm : (mmatch re s []).head? with
    | some p =>
      rw [execAllAux_succ_some re n s pos p hm] at hq
      by_cases hlen : s.length - p.1.length = 0
      · simp [hlen] at hq
      · simp only [hlen, if_false, List.map_cons, List.mem_cons] at hq
        rcases hq with h | h
        · omega
        · have := ih p.1 (pos + (s.length - p.1.length)) q h
          omega
    | none =>
      cases s with
      | nil =>
        rw [execAllAux_succ_none_nil re n pos hm] at hq
        simp at hq
      | cons c rest =>
        rw [execAllAux_succ_none_cons re n c rest pos hm] at hq
        have := ih rest (pos + 1) q hq
        omega

lemma execAllAux_chain (re : RE) :
    ∀ fuel s pos, List.Chain' (· < ·) ((execAllAux re fuel s pos).map Prod.fst) := by
  intro fuel
  induction fuel with
  | zero => intro s pos; simp [execAllAux]
  | succ n ih =>
    intro s pos
    cases hm : (mmatch re s []).head? with
    | some p =>
      rw [execAllAux_succ_some re n s pos p hm]
      by_cases hlen : s.length - p.1.length = 0
      · simp [hlen]
      · simp only [hlen, if_false, List.map_cons]
        rw [List.chain'_cons']
        refine ⟨?_, ih p.1 (pos + (s.length - p.1.length))⟩
        intro b hb
        have hmem : b ∈ (execAllAux re n p.1 (pos + (s.length - p.1.length))).map Prod.fst :=
          List.mem_of_mem_head? hb
        have := execAllAux_fst_ge re n p.1 (pos + (s.length - p.1.length)) b hmem
        omega
    | none =>
      cases s with
      | nil => rw [execAllAux_succ_none_nil re n pos hm]; simp
      | cons c rest =>
        rw [execAllAux_succ_none_cons re n c rest pos hm]
        exact ih rest (pos + 1)

/-- C2 (amended): the imports sequence equals the import-statement scan's
captures in order of appearance followed by the require scan's captures in
order of appearance (duplicates included); within each scan the match
positions strictly increase.  A require call textually before an import
statement is therefore listed after that import's target, not before. -/
theorem c2_amended_import_order (content : String) :
    (extractImportsAndSymbols content).imports =
      (execAll importRe content.data).filterMap (fun m => (getCap m.2 1).map String.mk) ++
      (execAll requireRe content.data).filterMap (fun m => (getCap m.2 1).map String.mk) ∧
    List.Chain' (· < ·) ((execAll importRe content.data).map Prod.fst) ∧
    List.Chain' (· < ·) ((execAll requireRe content.data).map Prod.fst) :=
  ⟨rfl, execAllAux_chain importRe _ _ _, execAllAux_chain requireRe _ _ _⟩

/-- C2 counterexample: in this content the require call occurs textually
before the import statement, yet its target is listed second, so the
returned sequence is not in first-seen order over the whole text. -/
theorem c2_counterexample :
    (extractImportsAndSymbols "require(\"a\"); import \"b\";").imports = ["b", "a"] ∧
    (extractImportsAndSymbols "require(\"a\"); import \"b\";").imports ≠ ["a", "b"] := by
  constructor
  · decide
  · decide

/-- C9: symbol extraction is a pure, deterministic function of the content
string: identical inputs yield identical extraction results. -/
theorem c9_extract_deterministic (c₁ c₂ : String) (h : c₁ = c₂) :
    extractImportsAndSymbols c₁ = extractImportsAndSymbols c₂ := by rw [h]

/-- Witness for C9 at a concrete content string. -/
theorem c9_extract_witness :
    extractImportsAndSymbols "import \"x\"" = extractImportsAndSymbols "import \"x\"" :=
  c9_extract_deterministic _ _ rfl

/-! ## Proofs about the resolver (claims C5 and C6) -/

lemma probeLoop_eq_find (fs : FS) (l : List String) :
    probeLoop fs l = (l.find? (probeOk fs)).map (pathResolveOne fs.cwd) := by
  induction l with
  | nil => rfl
  | cons c rest ih =>
    by_cases he : fs.existsb c
    · cases hs : fs.stat c with
      | ok st =>
        by_cases hf : st.isFile
        · simp [probeLoop, he, hs, hf, List.find?, probeOk]
        · have hp : probeOk fs c = false := by
            simp [probeOk, he, hs]
            simpa using hf
          simp [probeLoop, he, hs, hf, List.find?, hp, ih]
      | error e =>
        have hp : probeOk fs c = false := by simp [probeOk, he, hs]
        simp [probeLoop, he, hs, List.find?, hp, ih]
    · have hp : probeOk fs c = false := by simp [probeOk, he]
      simp [probeLoop, he, List.find?, hp, ih]

lemma find?_eq_some_split {α : Type} (p : α → Bool) (l : List α) (b : α)
    (h : l.find? p = some b) :
    ∃ l₁ l₂, l = l₁ ++ b :: l₂ ∧ p b = true ∧ ∀ d ∈ l₁, p d = false := by
  induction l with
  | nil => simp [List.find?] at h
  | cons c rest ih =>
    cases hc : p c with
    | true =>
      have hb : c = b := by
        simp only [List.find?, hc] at h
        exact Option.some.inj h
      subst hb
      exact ⟨[], rest, by simp, hc, by simp⟩
    | false =>
      simp only [List.find?, hc] at h
      obtain ⟨l₁, l₂, hl, hb, hfst⟩ := ih h
      refine ⟨c :: l₁, l₂, by simp [hl], hb, ?_⟩
      intro d hd
      rcases List.mem_cons.mp hd with rfl | hd
      · exact hc
      · exact hfst d hd

/-- C5: import strings not beginning with a dot or slash resolve to null;
otherwise the fixed candidate list is probed in order and the first
candidate that exists and is a regular file wins (null when none does). -/
theorem c5_resolve_probe_order (fs : FS) (fromFile imp : String) :
    (isRelOrAbs imp = false → resolveImport fs fromFile imp = none) ∧
    (isRelOrAbs imp = true →
      (resolveImport fs fromFile imp = none ↔
        ∀ c ∈ importCandidates fs fromFile imp, probeOk fs c = false) ∧
      (∀ r, resolveImport fs fromFile imp = some r →
        ∃ c l₁ l₂, importCandidates fs fromFile imp = l₁ ++ c :: l₂ ∧
          probeOk fs c = true ∧ (∀ d ∈ l₁, probeOk fs d = false) ∧
          r = pathResolveOne fs.cwd c)) := by
  constructor
  · intro h
    simp [resolveImport, h]
  · intro h
    have hres : resolveImport fs fromFile imp =
        ((importCandidates fs fromFile imp).find? (probeOk fs)).map (pathResolveOne fs.cwd) := by
      simp [resolveImport, h, probeLoop_eq_find]
    constructor
    · rw [hres]
      constructor
      · intro hn c hc
        cases hf : (importCandidates fs fromFile imp).find? (probeOk fs) with
        | none =>
          have := List.find?_eq_none.mp hf c hc
          simpa using this
        | some b => rw [hf] at hn; simp at hn
      · intro hall
        have : (importCandidates fs fromFile imp).find? (probeOk fs) = none :=
          List.find?_eq_none.mpr (fun c hc => by simp [hall c hc])
        rw [this]
        rfl
    · intro r hr
      rw [hres] at hr
      cases hf : (importCandidates fs fromFile imp).find? (probeOk fs) with
      | none => rw [hf] at hr; simp at hr
      | some b =>
        rw [hf] at hr
        obtain ⟨l₁, l₂, hl, hb, hfst⟩ := find?_eq_some_split _ _ _ hf
        refine ⟨b, l₁, l₂, hl, hb, hfst, ?_⟩
        simp at hr
        exact hr.symm

/-- Witness for C5: the bare specifier resolves to null, and the relative
specifier resolves through the probe list to the concrete file. -/
theorem c5_resolve_witness :
    isRelOrAbs "lodash" = false ∧ resolveImport fsOneB "/a.ts" "lodash" = none ∧
    isRelOrAbs "./b" = true ∧ resolveImport fsOneB "/a.ts" "./b" = some "/b.ts" := by
  refine ⟨by decide, (c5_resolve_probe_order fsOneB "/a.ts" "lodash").1 (by decide), by decide, ?_⟩
  decide

/-- C6 counterexample: the resolver copy in `src/generateFlow.ts` has no
try/catch, so a filesystem error raised while probing propagates instead
of being treated as a missing candidate, while the `src/extension.ts`
resolver on the same filesystem skips the candidate and returns null. -/
theorem c6_counterexample :
    resolveImportGF fsErr "/a.ts" "./x" = .error "EACCES" ∧
    resolveImport fsErr "/a.ts" "./x" = none := by
  constructor
  · rfl
  · rfl

/-- C6 (amended): the `src/extension.ts` resolver treats every probing
error as candidate-does-not-exist and continues with the next candidate,
always returning a path or null; the `src/generateFlow.ts` copy agrees
with it whenever no probe errors, but propagates a stat error otherwise
(see the counterexample). -/
theorem c6_amended_error_handling (fs : FS) (fromFile imp : String) :
    (resolveImport fs fromFile imp =
      (if isRelOrAbs imp then
        ((importCandidates fs fromFile imp).find? (probeOk fs)).map (pathResolveOne fs.cwd)
       else none)) ∧
    ((∀ c ∈ importCandidates fs fromFile imp, fs.existsb c = true → ∃ st, fs.stat c = .ok st) →
      resolveImportGF fs fromFile imp = .ok (resolveImport fs fromFile imp)) := by
  constructor
  · by_cases h : isRelOrAbs imp
    · simp [resolveImport, h, probeLoop_eq_find]
    · simp [resolveImport, h]
  · intro hok
    unfold resolveImportGF resolveImport
    by_cases h : isRelOrAbs imp
    · simp only [h, if_true]
      have : ∀ l : List String,
          (∀ c ∈ l, fs.existsb c = true → ∃ st, fs.stat c = .ok st) →
          probeLoopGF fs l = .ok (probeLoop fs l) := by
        intro l
        induction l with
        | nil => intro _; rfl
        | cons c rest ih =>
          intro hl
          by_cases he : fs.existsb c
          · obtain ⟨st, hst⟩ := hl c (by simp) he
            by_cases hf : st.isFile
            · simp [probeLoopGF, probeLoop, he, hst, hf]
            · simp [probeLoopGF, probeLoop, he, hst, hf]
              exact ih (fun d hd => hl d (by simp [hd]))
          · simp [probeLoopGF, probeLoop, he]
            exact ih (fun d hd => hl d (by simp [hd]))
      exact this _ hok
    · simp [h]

/-- Witness for C6's amended theorem on a concrete, error-free filesystem. -/
theorem c6_amended_witness :
    resolveImportGF fsOneB "/a.ts" "./b" = .ok (resolveImport fsOneB "/a.ts" "./b") :=
  (c6_amended_error_handling fsOneB "/a.ts" "./b").2 (by
    intro c hc he
    replace he : (c == "/b.ts") = true := he
    have hceq := eq_of_beq he
    subst hceq
    exact ⟨{ isFile := true }, rfl⟩)

/-! ## Proofs about the edge loop's emitted lines (claim C4) -/

lemma edgeImportStep_lines (fs : FS) (byRes : List (String × NodeRec))
    (fromId fromPath : String) (st : EdgeSt) (imp : String) :
    (edgeImportStep fs byRes fromId fromPath st imp).lines =
      st.lines ++ (perImportLine fs byRes fromId fromPath imp).toList := by
  unfold edgeImportStep perImportLine
  cases hr : resolveImport fs fromPath imp with
  | some resolved =>
    cases hb : getA byRes (pathResolveOne fs.cwd resolved) with
    | some target => simp [hb]
    | none => simp [hb]
  | none =>
    by_cases hd : headIs imp '.'
    · simp [hd]
    · simp [hd]

lemma foldl_importStep_lines (fs : FS) (byRes : List (String × NodeRec))
    (fromId fromPath : String) :
    ∀ (imps : List String) (st : EdgeSt),
      (imps.foldl (edgeImportStep fs byRes fromId fromPath) st).lines =
        st.lines ++ imps.filterMap (perImportLine fs byRes fromId fromPath) := by
  intro imps
  induction imps with
  | nil => intro st; simp
  | cons imp rest ih =>
    intro st
    rw [List.foldl_cons, ih, edgeImportStep_lines]
    cases hp : perImportLine fs byRes fromId fromPath imp with
    | some l => simp [List.filterMap_cons, hp]
    | none => simp [List.filterMap_cons, hp]

lemma edgeNodeStep_lines (fs : FS) (byRes : List (String × NodeRec)) (st : EdgeSt)
    (n : NodeRec) :
    (edgeNodeStep fs byRes st n).lines =
      st.lines ++
        n.extr.imports.filterMap (perImportLine fs byRes (makeId n.file.name) n.file.path) := by
  unfold edgeNodeStep
  by_cases hh : hasA st.adj (makeId n.file.name)
  · simp [hh, foldl_importStep_lines]
  · simp [hh, foldl_importStep_lines]

lemma foldl_nodeStep_lines (fs : FS) (byRes : List (String × NodeRec)) :
    ∀ (ns : List NodeRec) (st : EdgeSt),
      (ns.foldl (edgeNodeStep fs byRes) st).lines =
        st.lines ++ ns.flatMap (fun n =>
          n.extr.imports.filterMap (perImportLine fs byRes (makeId n.file.name) n.file.path)) := by
  intro ns
  induction ns with
  | nil => intro st; simp
  | cons n rest ih =>
    intro st
    rw [List.foldl_cons, ih, edgeNodeStep_lines]
    simp

lemma count_le_count_filterMap {α β : Type} [DecidableEq α] [DecidableEq β]
    (g : α → Option β) (xs : List α) (a : α) (b : β) (h : g a = some b) :
    xs.count a ≤ (xs.filterMap g).count b := by
  induction xs with
  | nil => simp
  | cons x rest ih =>
    by_cases hx : x = a
    · subst hx
      rw [List.filterMap_cons, h]
      rw [List.count_cons, List.count_cons]
      simp only [if_pos rfl, beq_self_eq_true]
      omega
    · rw [List.filterMap_cons]
      have hcx : (rest.count a) = (x :: rest).count a := by
        rw [List.count_cons]
        simp [hx]
      cases hg : g x with
      | some c =>
        rw [← hcx]
        calc rest.count a ≤ (rest.filterMap g).count b := ih
          _ ≤ (c :: rest.filterMap g).count b := by
              rw [List.count_cons]; omega
      | none => rw [← hcx]; exact ih

/-- C4 (amended): in the `src/extension.ts` renderer the edge lines are the
concatenation, file by file, of one optional line per raw import
occurrence, so an import string occurring k times contributes k lines
(multiplicity preserved, self-edges included, nothing deduplicated); the
`src/generateFlow.ts` renderer, by contrast, stores imports in a Set, so
duplicates collapse to a single line there (see the counterexample). -/
theorem c4_amended_multiplicity (fs : FS) (files : List FileInfo) :
    ((edgePhase fs files).lines =
      (nodesOf files).flatMap (fun n =>
        n.extr.imports.filterMap
          (perImportLine fs (byResolvedPath fs files) (makeId n.file.name) n.file.path))) ∧
    (∀ n ∈ nodesOf files, ∀ imp l,
      perImportLine fs (byResolvedPath fs files) (makeId n.file.name) n.file.path imp = some l →
      n.extr.imports.count imp ≤
        (n.extr.imports.filterMap
          (perImportLine fs (byResolvedPath fs files) (makeId n.file.name) n.file.path)).count l) ∧
    (∀ n ∈ nodesOf files, ∀ imp ∈ n.extr.imports, ∀ l,
      perImportLine fs (byResolvedPath fs files) (makeId n.file.name) n.file.path imp = some l →
      l ∈ mermaidLines fs files) := by
  have hlines : (edgePhase fs files).lines =
      (nodesOf files).flatMap (fun n =>
        n.extr.imports.filterMap
          (perImportLine fs (byResolvedPath fs files) (makeId n.file.name) n.file.path)) := by
    unfold edgePhase
    rw [foldl_nodeStep_lines]
    simp
  refine ⟨hlines, ?_, ?_⟩
  · intro n _ imp l hl
    exact count_le_count_filterMap _ _ _ _ hl
  · intro n hn imp himp l hl
    have h1 : l ∈ (edgePhase fs files).lines := by
      rw [hlines]
      exact List.mem_flatMap.mpr ⟨n, hn, List.mem_filterMap.mpr ⟨imp, himp, hl⟩⟩
    simp only [mermaidLines, List.mem_append]
    tauto

/-- C4 counterexample: a file importing `./b` twice yields two occurrences
in the extracted import list, yet the `src/generateFlow.ts` renderer emits
exactly one edge line for it, because `main` stores imports in a Set. -/
theorem c4_counterexample :
    (extractImportsAndSymbols gfFileDupA.content).imports.count "./b" = 2 ∧
    (buildMermaidGF fsAB [gfNodeOf gfFileDupA, gfNodeOf gfFileB]).isOk = true ∧
    ((buildMermaidGF fsAB [gfNodeOf gfFileDupA, gfNodeOf gfFileB]).toOption.getD []).count
      (Line.edge "a_ts" "b_ts") = 1 ∧
    ¬ ((buildMermaidGF fsAB [gfNodeOf gfFileDupA, gfNodeOf gfFileB]).toOption.getD []).count
      (Line.edge "a_ts" "b_ts") = 2 := by
  refine ⟨by decide, by decide, by decide, by decide⟩

/-- Witness for C4's amended theorem: two occurrences of `./b` give two
edge lines in the extension renderer, and a self-import yields a rendered
self-edge line. -/
theorem c4_amended_witness :
    nodeDupA.extr.imports.count "./b" = 2 ∧
    2 ≤ (nodeDupA.extr.imports.filterMap
          (perImportLine fsAB (byResolvedPath fsAB [fileDupA, fileB])
            (makeId nodeDupA.file.name) nodeDupA.file.path)).count (Line.edge "a_ts" "b_ts") ∧
    Line.edge "c_ts" "c_ts" ∈ mermaidLines fsSelf [fileSelf] := by
  refine ⟨by decide, ?_, ?_⟩
  · have h := (c4_amended_multiplicity fsAB [fileDupA, fileB]).2.1 nodeDupA
      (by decide) "./b" (Line.edge "a_ts" "b_ts") (by decide)
    have h2 : nodeDupA.extr.imports.count "./b" = 2 := by decide
    omega
  · exact (c4_amended_multiplicity fsSelf [fileSelf]).2.2
      { file := fileSelf, extr := extractImportsAndSymbols fileSelf.content }
      (by decide) "./c" (by decide) (Line.edge "c_ts" "c_ts") (by decide)

/-! ## Proofs about the anchor edges (claim C3) -/

/-- C3 (amended): the Start and End anchors are connected to file nodes
only: every file whose incoming count reads zero gets a Start edge and
every file whose outgoing count reads zero gets an End edge.  External
package nodes get no anchor edges at all, even with zero outgoing edges
(see the counterexample). -/
theorem c3_amended_anchor_edges (fs : FS) (files : List FileInfo) (f : FileInfo)
    (hf : f ∈ files) :
    (getD (edgePhase fs files).inc (makeId f.name) = 0 →
      Line.startEdge (makeId f.name) ∈ mermaidLines fs files) ∧
    (getD (edgePhase fs files).outg (makeId f.name) = 0 →
      Line.endEdge (makeId f.name) ∈ mermaidLines fs files) := by
  constructor
  · intro h0
    have hmem : Line.startEdge (makeId f.name) ∈ startEdges (edgePhase fs files).inc files := by
      apply List.mem_filterMap.mpr
      refine ⟨{ file := f, extr := extractImportsAndSymbols f.content }, ?_, ?_⟩
      · exact List.mem_map.mpr ⟨f, hf, rfl⟩
      · simp [h0]
    simp only [mermaidLines, List.mem_append]
    tauto
  · intro h0
    have hmem : Line.endEdge (makeId f.name) ∈ endEdges (edgePhase fs files).outg files := by
      apply List.mem_filterMap.mpr
      refine ⟨{ file := f, extr := extractImportsAndSymbols f.content }, ?_, ?_⟩
      · exact List.mem_map.mpr ⟨f, hf, rfl⟩
      · simp [h0]
    simp only [mermaidLines, List.mem_append]
    tauto

/-- C3 counterexample: the external node for lodash appears in the
rendered graph with no outgoing edges of any kind, yet no edge from it to
the End anchor is emitted (the anchor loops iterate over file nodes only);
the claim demands one for every graph node with zero outgoing edges. -/
theorem c3_counterexample :
    Line.extEdge "a_ts" "ext_lodash" "lodash" ∈ mermaidLines fsEmpty [fileLodash] ∧
    ((mermaidLines fsEmpty [fileLodash]).all (fun l =>
      match l with
      | Line.edge u _ => !(u == "ext_lodash")
      | Line.extEdge u _ _ => !(u == "ext_lodash")
      | Line.dashed u _ => !(u == "ext_lodash")
      | _ => true)) = true ∧
    Line.endEdge "ext_lodash" ∉ mermaidLines fsEmpty [fileLodash] := by
  refine ⟨by decide, by decide, by decide⟩

/-- Witness for C3's amended theorem at a concrete single-file input. -/
theorem c3_amended_witness :
    getD (edgePhase fsEmpty [fileLodash]).inc (makeId fileLodash.name) = 0 ∧
    Line.startEdge (makeId fileLodash.name) ∈ mermaidLines fsEmpty [fileLodash] :=
  ⟨by decide,
   (c3_amended_anchor_edges fsEmpty [fileLodash] fileLodash (by decide)).1 (by decide)⟩

/-! ## Proofs about the degenerate single-file rendering (claim C8) -/

/-- C8: a single file whose extraction is empty renders as exactly the
header, its subgraph containing one fallback node carrying the basename
and line count, the anchor declarations, and direct Start and End
connections to the file's node; there are no import or external edges and
exactly one fallback node. -/
theorem c8_single_file_fallback (fs : FS) (f : FileInfo)
    (h : extractImportsAndSymbols f.content = { imports := [], functions := [], classes := [] }) :
    mermaidLines fs [f] =
      [Line.header, Line.subgraphOpen (makeId f.name) f.name,
       Line.fallbackNode (makeId f.name) (basename f.name) f.lineCount, Line.subgraphEnd,
       Line.startDecl, Line.endDecl, Line.startEdge (makeId f.name),
       Line.endEdge (makeId f.name)] ∧
    ((mermaidLines fs [f]).countP (fun l =>
      match l with
      | Line.fallbackNode _ _ _ => true
      | _ => false)) = 1 ∧
    ((mermaidLines fs [f]).all (fun l =>
      match l with
      | Line.edge _ _ => false
      | Line.extEdge _ _ _ => false
      | _ => true)) = true ∧
    Line.startEdge (makeId f.name) ∈ mermaidLines fs [f] ∧
    Line.endEdge (makeId f.name) ∈ mermaidLines fs [f] := by
  have hn : nodesOf [f] =
      [{ file := f, extr := { imports := [], functions := [], classes := [] } }] := by
    simp [nodesOf, h]
  have hsub : subgraphLines { file := f, extr := { imports := [], functions := [], classes := [] } } =
      [Line.subgraphOpen (makeId f.name) f.name,
       Line.fallbackNode (makeId f.name) (basename f.name) f.lineCount, Line.subgraphEnd] := by
    simp [subgraphLines]
  have hdeg : degreesInit [f] = ([(makeId f.name, 0)], [(makeId f.name, 0)]) := by
    simp [degreesInit, setA, getD, getA]
  have hedge : edgePhase fs [f] =
      { lines := [], adj := [(makeId f.name, [])], inc := [(makeId f.name, 0)],
        outg := [(makeId f.name, 0)] } := by
    simp [edgePhase, hn, hdeg, edgeNodeStep, hasA, getA, setA]
  have hback : backboneOrder fs [f] = [makeId f.name] := by
    by_cases hid : makeId f.name = ""
    · have hbe : (makeId f.name == "") = true := by simpa using hid
      simp [backboneOrder, kahnOrder, hedge, inDegreeMapOf, keysOf, seedsOf, hasA, getA,
        setA, kahnAux, fallbackAppend, hbe, hid]
    · have hbe : (makeId f.name == "") = false := by simpa using hid
      simp [backboneOrder, kahnOrder, hedge, inDegreeMapOf, keysOf, seedsOf, hasA, getA,
        setA, kahnAux, decNeighbors, fallbackAppend, hbe]
  have hdash : dashedLines [makeId f.name] = [] := by
    simp [dashedLines]
  have hstart : startEdges [(makeId f.name, 0)] [f] = [Line.startEdge (makeId f.name)] := by
    simp [startEdges, hn, getD, getA]
  have hend : endEdges [(makeId f.name, 0)] [f] = [Line.endEdge (makeId f.name)] := by
    simp [endEdges, hn, getD, getA]
  have hmain : mermaidLines fs [f] =
      [Line.header, Line.subgraphOpen (makeId f.name) f.name,
       Line.fallbackNode (makeId f.name) (basename f.name) f.lineCount, Line.subgraphEnd,
       Line.startDecl, Line.endDecl, Line.startEdge (makeId f.name),
       Line.endEdge (makeId f.name)] := by
    simp only [mermaidLines, hedge, hn, hback, hdash]
    rw [hstart, hend]
    simp [hsub]
  refine ⟨hmain, ?_, ?_, ?_, ?_⟩
  · rw [hmain]; rfl
  · rw [hmain]; rfl
  · rw [hmain]; simp
  · rw [hmain]; simp

/-- Witness for C8 at a concrete text file with no extractable symbols. -/
theorem c8_witness :
    extractImportsAndSymbols fileTxt.content =
      { imports := [], functions := [], classes := [] } ∧
    ((mermaidLines fsEmpty [fileTxt]).countP (fun l =>
      match l with
      | Line.fallbackNode _ _ _ => true
      | _ => false)) = 1 ∧
    Line.startEdge (makeId fileTxt.name) ∈ mermaidLines fsEmpty [fileTxt] :=
  ⟨by decide, (c8_single_file_fallback fsEmpty fileTxt (by decide)).2.1,
   (c8_single_file_fallback fsEmpty fileTxt (by decide)).2.2.2.1⟩

/-! ## Association-map lemmas -/

lemma getA_setA_self {β : Type} (m : List (String × β)) (k : String) (v : β) :
    getA (setA m k v) k = some v := by
  induction m with
  | nil => simp [setA, getA]
  | cons p rest ih =>
    by_cases h : p.1 = k
    · simp [setA, h, getA]
    · simp [setA, h, getA, ih]

lemma getA_setA_ne {β : Type} (m : List (String × β)) (k k' : String) (v : β)
    (h : k ≠ k') : getA (setA m k v) k' = getA m k' := by
  induction m with
  | nil => simp [setA, getA, h]
  | cons p rest ih =>
    by_cases hp : p.1 = k
    · subst hp
      simp [setA, getA, h]
    · by_cases hp' : p.1 = k'
      · have hk : ¬ k' = k := fun he => h he.symm
        simp [setA, hp, getA, hp', hk]
      · simp [setA, hp, getA, hp', ih]

lemma getD_setA_self (m : DegMap) (k : String) (v : Int) : getD (setA m k v) k = v := by
  simp [getD, getA_setA_self]

lemma getD_setA_ne (m : DegMap) (k k' : String) (v : Int) (h : k ≠ k') :
    getD (setA m k v) k' = getD m k' := by
  simp [getD, getA_setA_ne m k k' v h]

lemma mem_keys_setA {β : Type} (m : List (String × β)) (k v k') :
    k' ∈ keysOf (setA m k v) ↔ k' ∈ keysOf m ∨ k' = k := by
  induction m with
  | nil => simp [setA, keysOf]
  | cons p rest ih =>
    by_cases h : p.1 = k
    · subst h
      simp [setA, keysOf]
      tauto
    · simp [setA, h, keysOf] at ih ⊢
      tauto

lemma keys_nodup_setA {β : Type} (m : List (String × β)) (k : String) (v : β)
    (h : (keysOf m).Nodup) : (keysOf (setA m k v)).Nodup := by
  induction m with
  | nil => simp [setA, keysOf]
  | cons p rest ih =>
    simp only [keysOf, List.map_cons, List.nodup_cons] at h
    by_cases hp : p.1 = k
    · subst hp
      simpa [setA, keysOf] using h
    · simp only [setA, hp, if_false, keysOf, List.map_cons, List.nodup_cons]
      refine ⟨?_, ih h.2⟩
      intro hmem
      rcases (mem_keys_setA rest k v p.1).mp hmem with hm | he
      · exact h.1 hm
      · exact hp he

lemma getA_mem {β : Type} (m : List (String × β)) (k : String) (v : β)
    (h : getA m k = some v) : (k, v) ∈ m := by
  induction m with
  | nil => simp [getA] at h
  | cons p rest ih =>
    by_cases hp : p.1 = k
    · subst hp
      simp only [getA, if_pos] at h
      cases h
      exact List.mem_cons.mpr (Or.inl rfl)
    · simp only [getA, hp, if_false] at h
      exact List.mem_cons_of_mem _ (ih h)

lemma getA_some_mem_keys {β : Type} (m : List (String × β)) (k : String) (v : β)
    (h : getA m k = some v) : k ∈ keysOf m :=
  List.mem_map.mpr ⟨(k, v), getA_mem m k v h, rfl⟩

lemma getA_of_mem_nodup {β : Type} (m : List (String × β)) (k : String) (v : β)
    (hnd : (keysOf m).Nodup) (hm : (k, v) ∈ m) : getA m k = some v := by
  induction m with
  | nil => simp at hm
  | cons p rest ih =>
    simp only [keysOf, List.map_cons, List.nodup_cons] at hnd
    rcases List.mem_cons.mp hm with he | hr
    · subst he
      simp [getA]
    · have hk : p.1 ≠ k := by
        intro hpk
        exact hnd.1 (by
          subst hpk
          exact List.mem_map.mpr ⟨(p.1, v), hr, rfl⟩)
      simp only [getA, hk, if_false]
      exact ih hnd.2 hr

lemma mem_setA {β : Type} (m : List (String × β)) (k : String) (v : β) (p : String × β)
    (h : p ∈ setA m k v) : p ∈ m ∨ p = (k, v) := by
  induction m with
  | nil => simp [setA] at h; right; exact h
  | cons q rest ih =>
    by_cases hq : q.1 = k
    · simp only [setA, hq, if_pos] at h
      rcases List.mem_cons.mp h with he | hr
      · right; exact he
      · left; exact List.mem_cons_of_mem _ hr
    · simp only [setA, hq, if_false] at h
      rcases List.mem_cons.mp h with he | hr
      · left; exact he ▸ List.mem_cons_self _ _
      · rcases ih hr with h1 | h2
        · left; exact List.mem_cons_of_mem _ h1
        · right; exact h2

/-! ## The Kahn loop invariant (claims C1 and C7) -/

lemma decNeighbors_invA (K : List String) :
    ∀ (ns : List String) (m : DegMap) (q acc : List String),
      (acc ++ q).Nodup →
      (∀ id ∈ acc ++ q, getD m id ≤ 0) →
      (∀ id ∈ acc ++ q, id ∈ K) →
      (∀ k, 0 < getD m k → k ∈ K) →
      (acc ++ (decNeighbors ns m q).2).Nodup ∧
      (∀ id ∈ acc ++ (decNeighbors ns m q).2, getD (decNeighbors ns m q).1 id ≤ 0) ∧
      (∀ id ∈ acc ++ (decNeighbors ns m q).2, id ∈ K) ∧
      (∀ k, 0 < getD (decNeighbors ns m q).1 k → k ∈ K) := by
  intro ns
  induction ns with
  | nil =>
    intro m q acc h1 h2 h3 h4
    exact ⟨h1, h2, h3, h4⟩
  | cons nb rest ih =>
    intro m q acc h1 h2 h3 h4
    show (acc ++ (decNeighbors (nb :: rest) m q).2).Nodup ∧ _
    have hstep : decNeighbors (nb :: rest) m q =
        decNeighbors rest (setA m nb (getD m nb - 1))
          (if getD m nb - 1 = 0 then q ++ [nb] else q) := rfl
    rw [hstep]
    by_cases hd : getD m nb - 1 = 0
    · have hd1 : getD m nb = 1 := by omega
      rw [if_pos hd]
      have hnb : nb ∉ acc ++ q := by
        intro hmem
        have := h2 nb hmem
        omega
      apply ih
      · rw [← List.append_assoc]
        rw [List.nodup_append]
        refine ⟨h1, List.nodup_singleton nb, ?_⟩
        intro a ha hb
        simp at hb
        subst hb
        exact hnb ha
      · intro id hid
        rw [← List.append_assoc] at hid
        rcases List.mem_append.mp hid with hin | hsing
        · by_cases hnbid : id = nb
          · subst hnbid
            rw [getD_setA_self]
            omega
          · rw [getD_setA_ne _ _ _ _ (fun he => hnbid he.symm)]
            exact h2 id hin
        · simp at hsing
          subst hsing
          rw [getD_setA_self]
          omega
      · intro id hid
        rw [← List.append_assoc] at hid
        rcases List.mem_append.mp hid with hin | hsing
        · exact h3 id hin
        · simp at hsing
          subst hsing
          exact h4 _ (by omega)
      · intro k hk
        by_cases hnbk : k = nb
        · subst hnbk
          rw [getD_setA_self] at hk
          omega
        · rw [getD_setA_ne _ _ _ _ (fun he => hnbk he.symm)] at hk
          exact h4 k hk
    · rw [if_neg hd]
      apply ih
      · exact h1
      · intro id hid
        by_cases hnbid : id = nb
        · subst hnbid
          rw [getD_setA_self]
          have := h2 id hid
          omega
        · rw [getD_setA_ne _ _ _ _ (fun he => hnbid he.symm)]
          exact h2 id hid
      · exact h3
      · intro k hk
        by_cases hnbk : k = nb
        · subst hnbk
          rw [getD_setA_self] at hk
          exact h4 _ (by omega)
        · rw [getD_setA_ne _ _ _ _ (fun he => hnbk he.symm)] at hk
          exact h4 k hk

lemma kahnAux_succ_cons (adj : AdjMap) (n : Nat) (cur : String) (q : List String)
    (m : DegMap) (acc : List String) :
    kahnAux adj (n + 1) (cur :: q) m acc =
      match getA adj cur with
      | none => kahnAux adj n q m (acc ++ [cur])
      | some ns =>
          kahnAux adj n (decNeighbors ns m q).2 (decNeighbors ns m q).1 (acc ++ [cur]) := rfl

lemma kahnAux_invA (adj : AdjMap) (K : List String) :
    ∀ (fuel : Nat) (q : List String) (m : DegMap) (acc : List String),
      (acc ++ q).Nodup →
      (∀ id ∈ acc ++ q, getD m id ≤ 0) →
      (∀ id ∈ acc ++ q, id ∈ K) →
      (∀ k, 0 < getD m k → k ∈ K) →
      (kahnAux adj fuel q m acc).Nodup ∧
      (∀ id ∈ kahnAux adj fuel q m acc, id ∈ K) := by
  intro fuel
  induction fuel with
  | zero =>
    intro q m acc h1 h2 h3 _
    refine ⟨h1.of_append_left, ?_⟩
    intro id hid
    exact h3 id (List.mem_append_left _ hid)
  | succ n ih =>
    intro q m acc h1 h2 h3 h4
    cases q with
    | nil =>
      refine ⟨by simpa using h1, ?_⟩
      intro id hid
      exact h3 id (by simpa using hid)
    | cons cur qrest =>
      have hre : acc ++ cur :: qrest = (acc ++ [cur]) ++ qrest := by
        rw [List.append_assoc]
        rfl
      rw [hre] at h1 h2 h3
      rw [kahnAux_succ_cons]
      cases hadj : getA adj cur with
      | none =>
        exact ih qrest m (acc ++ [cur]) h1 h2 h3 h4
      | some ns =>
        have hdec := decNeighbors_invA K ns m qrest (acc ++ [cur]) h1 h2 h3 h4
        exact ih (decNeighbors ns m qrest).2 (decNeighbors ns m qrest).1 (acc ++ [cur])
          hdec.1 hdec.2.1 hdec.2.2.1 hdec.2.2.2


lemma getD_ne_zero_mem_keys (m : DegMap) (k : String) (h : getD m k ≠ 0) :
    k ∈ keysOf m := by
  cases hg : getA m k with
  | none => exact absurd (by simp [getD, hg]) h
  | some v => exact getA_some_mem_keys m k v hg

lemma foldl_setA_keys_mem (l : List (String × Int)) :
    ∀ (m : DegMap) (k : String),
      k ∈ keysOf (l.foldl (fun m p => setA m p.1 p.2) m) ↔
        k ∈ keysOf m ∨ k ∈ l.map Prod.fst := by
  induction l with
  | nil => intro m k; simp
  | cons p rest ih =>
    intro m k
    rw [List.foldl_cons, ih]
    rw [mem_keys_setA]
    simp
    tauto

lemma foldl_setA_keys_nodup (l : List (String × Int)) :
    ∀ (m : DegMap), (keysOf m).Nodup →
      (keysOf (l.foldl (fun m p => setA m p.1 p.2) m)).Nodup := by
  induction l with
  | nil => intro m h; exact h
  | cons p rest ih =>
    intro m h
    rw [List.foldl_cons]
    exact ih _ (keys_nodup_setA m p.1 p.2 h)

lemma foldl_ensure_keys_mem (ks : List String) :
    ∀ (m : DegMap) (k : String),
      k ∈ keysOf (ks.foldl (fun m k => if hasA m k then m else setA m k 0) m) ↔
        k ∈ keysOf m ∨ k ∈ ks := by
  induction ks with
  | nil => intro m k; simp
  | cons k0 rest ih =>
    intro m k
    rw [List.foldl_cons]
    by_cases hh : hasA m k0
    · rw [if_pos hh, ih]
      have hk0 : k0 ∈ keysOf m := by
        cases hg : getA m k0 with
        | none => simp [hasA, hg] at hh
        | some v => exact getA_some_mem_keys m k0 v hg
      constructor
      · rintro (h | h)
        · exact Or.inl h
        · exact Or.inr (List.mem_cons_of_mem _ h)
      · rintro (h | h)
        · exact Or.inl h
        · rcases List.mem_cons.mp h with rfl | h2
          · exact Or.inl hk0
          · exact Or.inr h2
    · rw [if_neg hh, ih, mem_keys_setA]
      constructor
      · rintro ((h | h) | h)
        · exact Or.inl h
        · exact Or.inr (h ▸ List.mem_cons_self _ _)
        · exact Or.inr (List.mem_cons_of_mem _ h)
      · rintro (h | h)
        · exact Or.inl (Or.inl h)
        · rcases List.mem_cons.mp h with rfl | h2
          · exact Or.inl (Or.inr rfl)
          · exact Or.inr h2

lemma foldl_ensure_keys_nodup (ks : List String) :
    ∀ (m : DegMap), (keysOf m).Nodup →
      (keysOf (ks.foldl (fun m k => if hasA m k then m else setA m k 0) m)).Nodup := by
  induction ks with
  | nil => intro m h; exact h
  | cons k0 rest ih =>
    intro m h
    rw [List.foldl_cons]
    by_cases hh : hasA m k0
    · rw [if_pos hh]; exact ih _ h
    · rw [if_neg hh]; exact ih _ (keys_nodup_setA m k0 0 h)

lemma inDegreeMapOf_keys_nodup (inc : DegMap) (adj : AdjMap) :
    (keysOf (inDegreeMapOf inc adj)).Nodup := by
  unfold inDegreeMapOf
  exact foldl_ensure_keys_nodup _ _ (foldl_setA_keys_nodup _ _ (by simp [keysOf]))

lemma inDegreeMapOf_keys_mem (inc : DegMap) (adj : AdjMap) (k : String) :
    k ∈ keysOf (inDegreeMapOf inc adj) ↔ k ∈ keysOf inc ∨ k ∈ keysOf adj := by
  unfold inDegreeMapOf
  rw [foldl_ensure_keys_mem, foldl_setA_keys_mem]
  simp [keysOf]

lemma seedsOf_nodup (m : DegMap) (h : (keysOf m).Nodup) : (seedsOf m).Nodup := by
  unfold seedsOf
  exact h.sublist (List.Sublist.map Prod.fst (List.filter_sublist m))

lemma seedsOf_val (m : DegMap) (h : (keysOf m).Nodup) :
    ∀ id ∈ seedsOf m, getD m id = 0 := by
  intro id hid
  obtain ⟨p, hp, hfst⟩ := List.mem_map.mp hid
  have hpm := List.mem_of_mem_filter hp
  have hpred := List.of_mem_filter hp
  simp only [Bool.and_eq_true, beq_iff_eq] at hpred
  have : getA m id = some p.2 := by
    rw [← hfst]
    exact getA_of_mem_nodup m p.1 p.2 h (by
      have : (p.1, p.2) = p := rfl
      rw [this]
      exact hpm)
  simp [getD, this, hpred.1]

lemma seedsOf_mem_keys (m : DegMap) : ∀ id ∈ seedsOf m, id ∈ keysOf m := by
  intro id hid
  obtain ⟨p, hp, hfst⟩ := List.mem_map.mp hid
  exact hfst ▸ List.mem_map.mpr ⟨p, List.mem_of_mem_filter hp, rfl⟩

/-- The Kahn phase produces a duplicate-free list of identifiers drawn from
the in-degree map's keys, for any fuel and hence for the fuel used. -/
lemma kahnOrder_nodup_sub (fs : FS) (files : List FileInfo) :
    (kahnOrder fs files).Nodup ∧
    ∀ id ∈ kahnOrder fs files,
      id ∈ keysOf (inDegreeMapOf (edgePhase fs files).inc (edgePhase fs files).adj) := by
  unfold kahnOrder
  have hnd := inDegreeMapOf_keys_nodup (edgePhase fs files).inc (edgePhase fs files).adj
  apply kahnAux_invA
  · simpa using seedsOf_nodup _ hnd
  · intro id hid
    rw [List.nil_append] at hid
    rw [seedsOf_val _ hnd id hid]
  · intro id hid
    rw [List.nil_append] at hid
    exact seedsOf_mem_keys _ id hid
  · intro k hk
    exact getD_ne_zero_mem_keys _ k (by omega)

/-! ## Keys of the degree maps built by the edge phase -/

lemma mem_foldl_setA_nodes (fs : FS) (L : List NodeRec) :
    ∀ (m : List (String × NodeRec)) (p : String × NodeRec),
      p ∈ L.foldl (fun m n => setA m (pathResolveOne fs.cwd n.file.path) n) m →
      p ∈ m ∨ p.2 ∈ L := by
  induction L with
  | nil => intro m p h; exact Or.inl h
  | cons n rest ih =>
    intro m p h
    rcases ih _ p h with h1 | h2
    · rcases mem_setA _ _ _ _ h1 with h3 | h4
      · exact Or.inl h3
      · right
        rw [h4]
        exact List.mem_cons_self _ _
    · exact Or.inr (List.mem_cons_of_mem _ h2)

lemma byRes_target_mem (fs : FS) (files : List FileInfo) (p : String) (n : NodeRec)
    (h : getA (byResolvedPath fs files) p = some n) : n ∈ nodesOf files := by
  have hm := getA_mem _ _ _ h
  rcases mem_foldl_setA_nodes fs (nodesOf files) [] (p, n) hm with h1 | h2
  · simp at h1
  · exact h2

lemma nodesOf_name_mem (files : List FileInfo) (n : NodeRec) (h : n ∈ nodesOf files) :
    makeId n.file.name ∈ files.map fileId := by
  obtain ⟨f, hf, he⟩ := List.mem_map.mp h
  subst he
  exact List.mem_map.mpr ⟨f, hf, rfl⟩

lemma degreesInit_keys (files : List FileInfo) :
    (∀ k, k ∈ keysOf (degreesInit files).1 ↔ k ∈ files.map fileId) ∧
    (∀ k, k ∈ keysOf (degreesInit files).2 ↔ k ∈ files.map fileId) := by
  have hgen : ∀ (fl : List FileInfo) (pr : DegMap × DegMap) (k : String),
      (k ∈ keysOf (fl.foldl (fun pr f =>
        (setA pr.1 (makeId f.name) (getD pr.1 (makeId f.name)), setA pr.2 (makeId f.name) 0))
          pr).1 ↔ k ∈ keysOf pr.1 ∨ k ∈ fl.map fileId) ∧
      (k ∈ keysOf (fl.foldl (fun pr f =>
        (setA pr.1 (makeId f.name) (getD pr.1 (makeId f.name)), setA pr.2 (makeId f.name) 0))
          pr).2 ↔ k ∈ keysOf pr.2 ∨ k ∈ fl.map fileId) := by
    intro fl
    induction fl with
    | nil => intro pr k; simp
    | cons f rest ih =>
      intro pr k
      rw [List.foldl_cons]
      constructor
      · rw [(ih _ k).1, mem_keys_setA]
        simp [fileId]
        tauto
      · rw [(ih _ k).2, mem_keys_setA]
        simp [fileId]
        tauto
  constructor
  · intro k
    have := (hgen files ([], []) k).1
    unfold degreesInit
    rw [this]
    simp [keysOf]
  · intro k
    have := (hgen files ([], []) k).2
    unfold degreesInit
    rw [this]
    simp [keysOf]

lemma edgeImportStep_eq_file (fs : FS) (byRes : List (String × NodeRec))
    (fromId fromPath : String) (st : EdgeSt) (imp resolved : String) (target : NodeRec)
    (hr : resolveImport fs fromPath imp = some resolved)
    (hb : getA byRes (pathResolveOne fs.cwd resolved) = some target) :
    edgeImportStep fs byRes fromId fromPath st imp =
      { lines := st.lines ++ [Line.edge fromId (makeId target.file.name)]
        adj := setA st.adj fromId
          (addOnce ((getA st.adj fromId).getD []) (makeId target.file.name))
        inc := setA st.inc (makeId target.file.name) (getD st.inc (makeId target.file.name) + 1)
        outg := setA st.outg fromId (getD st.outg fromId + 1) } := by
  unfold edgeImportStep
  simp only [hr, hb]

lemma edgeImportStep_eq_skip (fs : FS) (byRes : List (String × NodeRec))
    (fromId fromPath : String) (st : EdgeSt) (imp resolved : String)
    (hr : resolveImport fs fromPath imp = some resolved)
    (hb : getA byRes (pathResolveOne fs.cwd resolved) = none) :
    edgeImportStep fs byRes fromId fromPath st imp = st := by
  unfold edgeImportStep
  simp only [hr, hb]

lemma edgeImportStep_eq_relmiss (fs : FS) (byRes : List (String × NodeRec))
    (fromId fromPath : String) (st : EdgeSt) (imp : String)
    (hr : resolveImport fs fromPath imp = none) (hdot : headIs imp '.' = true) :
    edgeImportStep fs byRes fromId fromPath st imp = st := by
  unfold edgeImportStep
  simp only [hr]
  simp [hdot]

lemma edgeImportStep_eq_ext (fs : FS) (byRes : List (String × NodeRec))
    (fromId fromPath : String) (st : EdgeSt) (imp : String)
    (hr : resolveImport fs fromPath imp = none) (hdot : headIs imp '.' = false) :
    edgeImportStep fs byRes fromId fromPath st imp =
      { lines := st.lines ++ [Line.extEdge fromId (makeId ("ext_" ++ imp)) imp]
        adj := setA st.adj fromId
          (addOnce ((getA st.adj fromId).getD []) (makeId ("ext_" ++ imp)))
        inc := st.inc
        outg := setA st.outg fromId (getD st.outg fromId + 1) } := by
  unfold edgeImportStep
  simp only [hr]
  simp [hdot]

lemma edgeImportStep_keys (fs : FS) (files : List FileInfo) (fromId fromPath : String)
    (st : EdgeSt) (imp : String)
    (hfrom : fromId ∈ files.map fileId)
    (hinc : ∀ k, k ∈ keysOf st.inc ↔ k ∈ files.map fileId)
    (hadj : ∀ k, k ∈ keysOf st.adj → k ∈ files.map fileId) :
    (∀ k, k ∈ keysOf (edgeImportStep fs (byResolvedPath fs files) fromId fromPath st imp).inc ↔
      k ∈ files.map fileId) ∧
    (∀ k, k ∈ keysOf (edgeImportStep fs (byResolvedPath fs files) fromId fromPath st imp).adj →
      k ∈ files.map fileId) := by
  cases hr : resolveImport fs fromPath imp with
  | some resolved =>
    cases hb : getA (byResolvedPath fs files) (pathResolveOne fs.cwd resolved) with
    | some target =>
      rw [edgeImportStep_eq_file fs _ fromId fromPath st imp resolved target hr hb]
      have htid : makeId target.file.name ∈ files.map fileId :=
        nodesOf_name_mem files target (byRes_target_mem fs files _ target hb)
      constructor
      · intro k
        simp only [mem_keys_setA]
        rw [hinc]
        constructor
        · rintro (h | rfl)
          · exact h
          · exact htid
        · exact Or.inl
      · intro k hk
        simp only [mem_keys_setA] at hk
        rcases hk with h | rfl
        · exact hadj k h
        · exact hfrom
    | none =>
      rw [edgeImportStep_eq_skip fs _ fromId fromPath st imp resolved hr hb]
      exact ⟨hinc, hadj⟩
  | none =>
    by_cases hdot : headIs imp '.'
    · rw [edgeImportStep_eq_relmiss fs _ fromId fromPath st imp hr hdot]
      exact ⟨hinc, hadj⟩
    · rw [edgeImportStep_eq_ext fs _ fromId fromPath st imp hr (by simpa using hdot)]
      constructor
      · exact hinc
      · intro k hk
        simp only [mem_keys_setA] at hk
        rcases hk with h | rfl
        · exact hadj k h
        · exact hfrom

lemma foldl_importStep_keys (fs : FS) (files : List FileInfo) (fromId fromPath : String)
    (hfrom : fromId ∈ files.map fileId) :
    ∀ (imps : List String) (st : EdgeSt),
      (∀ k, k ∈ keysOf st.inc ↔ k ∈ files.map fileId) →
      (∀ k, k ∈ keysOf st.adj → k ∈ files.map fileId) →
      (∀ k, k ∈ keysOf
          ((imps.foldl (edgeImportStep fs (byResolvedPath fs files) fromId fromPath) st)).inc ↔
        k ∈ files.map fileId) ∧
      (∀ k, k ∈ keysOf
          ((imps.foldl (edgeImportStep fs (byResolvedPath fs files) fromId fromPath) st)).adj →
        k ∈ files.map fileId) := by
  intro imps
  induction imps with
  | nil => intro st hinc hadj; exact ⟨hinc, hadj⟩
  | cons imp rest ih =>
    intro st hinc hadj
    rw [List.foldl_cons]
    have hstep := edgeImportStep_keys fs files fromId fromPath st imp hfrom hinc hadj
    exact ih _ hstep.1 hstep.2

lemma edgePhase_keys (fs : FS) (files : List FileInfo) :
    (∀ k, k ∈ keysOf (edgePhase fs files).inc ↔ k ∈ files.map fileId) ∧
    (∀ k, k ∈ keysOf (edgePhase fs files).adj → k ∈ files.map fileId) := by
  have hgen : ∀ (ns : List NodeRec), (∀ n ∈ ns, n ∈ nodesOf files) →
      ∀ (st : EdgeSt),
      (∀ k, k ∈ keysOf st.inc ↔ k ∈ files.map fileId) →
      (∀ k, k ∈ keysOf st.adj → k ∈ files.map fileId) →
      (∀ k, k ∈ keysOf ((ns.foldl (edgeNodeStep fs (byResolvedPath fs files)) st)).inc ↔
        k ∈ files.map fileId) ∧
      (∀ k, k ∈ keysOf ((ns.foldl (edgeNodeStep fs (byResolvedPath fs files)) st)).adj →
        k ∈ files.map fileId) := by
    intro ns
    induction ns with
    | nil => intro _ st hinc hadj; exact ⟨hinc, hadj⟩
    | cons n rest ih =>
      intro hmem st hinc hadj
      rw [List.foldl_cons]
      have hfrom : makeId n.file.name ∈ files.map fileId :=
        nodesOf_name_mem files n (hmem n (List.mem_cons_self _ _))
      have hst1 :
          (∀ k, k ∈ keysOf (edgeNodeStep fs (byResolvedPath fs files) st n).inc ↔
            k ∈ files.map fileId) ∧
          (∀ k, k ∈ keysOf (edgeNodeStep fs (byResolvedPath fs files) st n).adj →
            k ∈ files.map fileId) := by
        simp only [edgeNodeStep]
        by_cases hh : hasA st.adj (makeId n.file.name)
        · rw [if_pos hh]
          exact foldl_importStep_keys fs files _ _ hfrom _ st hinc hadj
        · rw [if_neg hh]
          refine foldl_importStep_keys fs files _ _ hfrom n.extr.imports
            { lines := st.lines, adj := setA st.adj (makeId n.file.name) [],
              inc := st.inc, outg := st.outg } hinc ?_
          intro k hk
          simp only [mem_keys_setA] at hk
          rcases hk with h | rfl
          · exact hadj k h
          · exact hfrom
      exact ih (fun n' hn' => hmem n' (List.mem_cons_of_mem _ hn')) _ hst1.1 hst1.2
  unfold edgePhase
  apply hgen (nodesOf files) (fun n hn => hn)
  · intro k
    exact (degreesInit_keys files).1 k
  · intro k hk
    simp [keysOf] at hk

/-! ## The fallback append -/

lemma fallbackAppend_nodup :
    ∀ (files : List FileInfo) (acc : List String), acc.Nodup →
      (fallbackAppend files acc).Nodup := by
  intro files
  induction files with
  | nil => intro acc h; exact h
  | cons f rest ih =>
    intro acc h
    show (fallbackAppend rest _).Nodup
    by_cases hm : makeId f.name ∈ acc
    · rw [if_pos hm]
      exact ih acc h
    · rw [if_neg hm]
      apply ih
      rw [List.nodup_append]
      exact ⟨h, List.nodup_singleton _, by
        intro a ha hb
        simp at hb
        subst hb
        exact hm ha⟩

lemma fallbackAppend_mem :
    ∀ (files : List FileInfo) (acc : List String) (id : String),
      id ∈ fallbackAppend files acc ↔ id ∈ acc ∨ id ∈ files.map fileId := by
  intro files
  induction files with
  | nil => intro acc id; simp [fallbackAppend]
  | cons f rest ih =>
    intro acc id
    show id ∈ fallbackAppend rest _ ↔ _
    by_cases hm : makeId f.name ∈ acc
    · rw [if_pos hm, ih]
      simp only [List.map_cons, List.mem_cons, fileId]
      constructor
      · rintro (h | h)
        · exact Or.inl h
        · exact Or.inr (Or.inr h)
      · rintro (h | h | h)
        · exact Or.inl h
        · exact Or.inl (h ▸ hm)
        · exact Or.inr h
    · rw [if_neg hm, ih]
      simp only [List.mem_append, List.mem_singleton, List.map_cons, List.mem_cons, fileId]
      tauto

/-- C1: for every filesystem and every collected file list, the backbone
order (Kahn phase plus fallback append) contains the sanitized identifier
of every file node exactly once: it is duplicate-free and its members are
exactly the sanitized file identifiers. -/
theorem c1_backbone_contains_each_file_once (fs : FS) (files : List FileInfo) :
    (backboneOrder fs files).Nodup ∧
    ∀ id, id ∈ backboneOrder fs files ↔ id ∈ files.map fileId := by
  obtain ⟨hknd, hksub⟩ := kahnOrder_nodup_sub fs files
  have hkeys : ∀ k, k ∈ keysOf (inDegreeMapOf (edgePhase fs files).inc
      (edgePhase fs files).adj) ↔ k ∈ files.map fileId := by
    intro k
    rw [inDegreeMapOf_keys_mem]
    constructor
    · rintro (h | h)
      · exact ((edgePhase_keys fs files).1 k).mp h
      · exact (edgePhase_keys fs files).2 k h
    · intro h
      exact Or.inl (((edgePhase_keys fs files).1 k).mpr h)
  have hsub : ∀ id ∈ kahnOrder fs files, id ∈ files.map fileId :=
    fun id hid => (hkeys id).mp (hksub id hid)
  unfold backboneOrder
  by_cases hlt : (kahnOrder fs files).length < files.length
  · rw [if_pos hlt]
    refine ⟨fallbackAppend_nodup _ _ hknd, ?_⟩
    intro id
    rw [fallbackAppend_mem]
    constructor
    · rintro (h | h)
      · exact hsub id h
      · exact h
    · exact Or.inr
  · rw [if_neg hlt]
    push_neg at hlt
    have hfin1 : (kahnOrder fs files).toFinset ⊆ (files.map fileId).toFinset := by
      intro x hx
      exact List.mem_toFinset.mpr (hsub x (List.mem_toFinset.mp hx))
    have hcard1 : (kahnOrder fs files).toFinset.card = (kahnOrder fs files).length :=
      List.toFinset_card_of_nodup hknd
    have hcard2 : (files.map fileId).toFinset.card ≤ files.length := by
      calc (files.map fileId).toFinset.card ≤ (files.map fileId).length :=
            List.toFinset_card_le _
        _ = files.length := List.length_map _ _
    have heq : (kahnOrder fs files).toFinset = (files.map fileId).toFinset := by
      apply Finset.eq_of_subset_of_card_le hfin1
      omega
    refine ⟨hknd, fun id => ?_⟩
    constructor
    · intro h
      exact List.mem_toFinset.mp (heq ▸ List.mem_toFinset.mpr h)
    · intro h
      exact List.mem_toFinset.mp (heq.symm ▸ List.mem_toFinset.mpr h)

/-! ## Helper lemmas for the backbone-consistency claim (C7) -/

lemma mem_addOnce_iff (l : List String) (x y : String) :
    y ∈ addOnce l x ↔ y ∈ l ∨ y = x := by
  unfold addOnce
  by_cases h : x ∈ l
  · rw [if_pos h]
    constructor
    · exact Or.inl
    · rintro (hy | rfl)
      · exact hy
      · exact h
  · rw [if_neg h]
    simp

lemma addOnce_nodup (l : List String) (x : String) (h : l.Nodup) : (addOnce l x).Nodup := by
  unfold addOnce
  by_cases hx : x ∈ l
  · rw [if_pos hx]; exact h
  · rw [if_neg hx]
    rw [List.nodup_append]
    exact ⟨h, List.nodup_singleton _, fun a ha hb => by
      simp at hb
      subst hb
      exact hx ha⟩

lemma filter_length_le_of_nodup (acc P : List String) (p : String → Bool)
    (hnd : acc.Nodup) (hPnd : P.Nodup) (himp : ∀ x ∈ acc, p x = true → x ∈ P) :
    (acc.filter p).length ≤ P.length := by
  have h1 : (acc.filter p).toFinset ⊆ P.toFinset := by
    intro x hx
    have hx' := List.mem_toFinset.mp hx
    exact List.mem_toFinset.mpr (himp x (List.mem_of_mem_filter hx') (List.of_mem_filter hx'))
  calc (acc.filter p).length = (acc.filter p).toFinset.card :=
        (List.toFinset_card_of_nodup (hnd.filter p)).symm
    _ ≤ P.toFinset.card := Finset.card_le_card h1
    _ ≤ P.length := List.toFinset_card_le P

lemma mem_acc_of_filter_length_ge (acc P : List String) (p : String → Bool)
    (hnd : acc.Nodup) (hPnd : P.Nodup) (himp : ∀ x ∈ acc, p x = true → x ∈ P)
    (hlen : P.length ≤ (acc.filter p).length) : ∀ x ∈ P, x ∈ acc := by
  have h1 : (acc.filter p).toFinset ⊆ P.toFinset := by
    intro x hx
    have hx' := List.mem_toFinset.mp hx
    exact List.mem_toFinset.mpr (himp x (List.mem_of_mem_filter hx') (List.of_mem_filter hx'))
  have h2 : (acc.filter p).toFinset.card = (acc.filter p).length :=
    List.toFinset_card_of_nodup (hnd.filter p)
  have h3 : P.toFinset.card = P.length := List.toFinset_card_of_nodup hPnd
  have heq : (acc.filter p).toFinset = P.toFinset :=
    Finset.eq_of_subset_of_card_le h1 (by omega)
  intro x hx
  have : x ∈ (acc.filter p).toFinset := by
    rw [heq]
    exact List.mem_toFinset.mpr hx
  exact List.mem_of_mem_filter (List.mem_toFinset.mp this)

lemma pred_mem_predKeys (adj : AdjMap) (u v : String) (h : v ∈ adjListOf adj u) :
    u ∈ predKeys adj v := by
  unfold adjListOf at h
  cases hg : getA adj u with
  | none => rw [hg] at h; simp at h
  | some l =>
    rw [hg] at h
    simp only [Option.getD_some] at h
    have hm : (u, l) ∈ adj := getA_mem _ _ _ hg
    exact List.mem_map.mpr ⟨(u, l), List.mem_filter.mpr ⟨hm, by simpa using h⟩, rfl⟩

lemma predKeys_nodup (adj : AdjMap) (v : String) (h : (keysOf adj).Nodup) :
    (predKeys adj v).Nodup := by
  unfold predKeys
  exact h.sublist (List.Sublist.map Prod.fst (List.filter_sublist adj))

lemma predCountIn_append_one (adj : AdjMap) (acc : List String) (cur v : String) :
    predCountIn adj (acc ++ [cur]) v =
      predCountIn adj acc v + (if v ∈ adjListOf adj cur then 1 else 0) := by
  unfold predCountIn
  rw [List.filter_append, List.length_append]
  congr 1
  by_cases h : v ∈ adjListOf adj cur
  · simp [h]
  · simp [h]

lemma predCountIn_le (adj : AdjMap) (acc : List String) (v : String)
    (hnd : acc.Nodup) (hknd : (keysOf adj).Nodup) :
    predCountIn adj acc v ≤ (predKeys adj v).length :=
  filter_length_le_of_nodup acc (predKeys adj v) _ hnd (predKeys_nodup adj v hknd)
    (fun x _ hp => pred_mem_predKeys adj x v (of_decide_eq_true hp))

lemma decNeighbors_spec :
    ∀ (ns : List String) (m : DegMap) (q : List String), ns.Nodup →
      (decNeighbors ns m q).2 = q ++ ns.filter (fun nb => getD m nb - 1 == 0) ∧
      (∀ v, getD (decNeighbors ns m q).1 v = getD m v - (if v ∈ ns then 1 else 0)) := by
  intro ns
  induction ns with
  | nil =>
    intro m q _
    constructor
    · simp [decNeighbors]
    · intro v
      simp [decNeighbors]
  | cons nb rest ih =>
    intro m q hnd
    rw [List.nodup_cons] at hnd
    obtain ⟨hnb, hrest⟩ := hnd
    have hstep : decNeighbors (nb :: rest) m q =
        decNeighbors rest (setA m nb (getD m nb - 1))
          (if getD m nb - 1 = 0 then q ++ [nb] else q) := rfl
    obtain ⟨hq, hm⟩ := ih (setA m nb (getD m nb - 1))
      (if getD m nb - 1 = 0 then q ++ [nb] else q) hrest
    constructor
    · rw [hstep, hq]
      have hfeq : rest.filter (fun nb' => getD (setA m nb (getD m nb - 1)) nb' - 1 == 0) =
          rest.filter (fun nb' => getD m nb' - 1 == 0) := by
        apply List.filter_congr
        intro x hx
        have hxnb : x ≠ nb := fun he => hnb (he ▸ hx)
        rw [getD_setA_ne _ _ _ _ (fun he => hxnb he.symm)]
      rw [hfeq]
      by_cases hd : getD m nb - 1 = 0
      · rw [if_pos hd, List.filter_cons]
        have hb : (getD m nb - 1 == 0) = true := by simpa using hd
        rw [hb]
        simp
      · rw [if_neg hd, List.filter_cons]
        have hb : (getD m nb - 1 == 0) = false := by simpa using hd
        rw [hb]
        simp
    · intro v
      rw [hstep, hm v]
      by_cases hv : v = nb
      · subst hv
        rw [getD_setA_self]
        have hvr : v ∉ rest := hnb
        simp [hvr]
      · rw [getD_setA_ne _ _ _ _ (fun he => hv he.symm)]
        simp [List.mem_cons, hv]

lemma adjListOf_setA_self (adj : AdjMap) (u : String) (newl : List String) :
    adjListOf (setA adj u newl) u = newl := by
  unfold adjListOf
  rw [getA_setA_self]
  rfl

lemma adjListOf_setA_ne (adj : AdjMap) (u u' : String) (newl : List String) (h : u ≠ u') :
    adjListOf (setA adj u newl) u' = adjListOf adj u' := by
  unfold adjListOf
  rw [getA_setA_ne _ _ _ _ h]

lemma adjListOf_nodup (adj : AdjMap) (h2 : ∀ p ∈ adj, p.2.Nodup) (u : String) :
    (adjListOf adj u).Nodup := by
  unfold adjListOf
  cases hg : getA adj u with
  | none => simp
  | some l =>
    simp only [Option.getD_some]
    exact h2 (u, l) (getA_mem _ _ _ hg)

lemma predKeys_cons (q : String × List String) (rest : AdjMap) (v : String) :
    (predKeys (q :: rest) v).length =
      (if v ∈ q.2 then 1 else 0) + (predKeys rest v).length := by
  unfold predKeys
  rw [List.filter_cons]
  by_cases h : v ∈ q.2
  · simp [h]
    omega
  · simp [h]

lemma adjListOf_cons_self (q : String × List String) (rest : AdjMap) (u : String)
    (h : q.1 = u) : adjListOf (q :: rest) u = q.2 := by
  unfold adjListOf
  cases q with
  | mk k l =>
    simp only at h
    simp [getA, h]

lemma adjListOf_cons_ne (q : String × List String) (rest : AdjMap) (u : String)
    (h : q.1 ≠ u) : adjListOf (q :: rest) u = adjListOf rest u := by
  unfold adjListOf
  cases q with
  | mk k l =>
    simp only at h
    simp [getA, h]

lemma predKeys_length_setA (v : String) :
    ∀ (adj : AdjMap) (u : String) (newl : List String), (keysOf adj).Nodup →
    ((predKeys (setA adj u newl) v).length : Int) =
      ((predKeys adj v).length : Int) + (if v ∈ newl then 1 else 0) -
        (if v ∈ adjListOf adj u then 1 else 0) := by
  intro adj
  induction adj with
  | nil =>
    intro u newl _
    have h1 : setA ([] : AdjMap) u newl = [(u, newl)] := rfl
    rw [h1]
    have h2 : (predKeys [(u, newl)] v).length =
        (if v ∈ newl then 1 else 0) + (predKeys ([] : AdjMap) v).length :=
      predKeys_cons (u, newl) [] v
    rw [h2]
    have h3 : adjListOf ([] : AdjMap) u = [] := rfl
    rw [h3]
    have h4 : (predKeys ([] : AdjMap) v).length = 0 := rfl
    rw [h4]
    by_cases h : v ∈ newl
    · simp [h]
    · simp [h]
  | cons p rest ih =>
    intro u newl hnd
    simp only [keysOf, List.map_cons, List.nodup_cons] at hnd
    by_cases hp : p.1 = u
    · have hset : setA (p :: rest) u newl = (u, newl) :: rest := by
        cases p with
        | mk k l => simp only at hp; simp [setA, hp]
      rw [hset]
      rw [predKeys_cons (u, newl) rest v, predKeys_cons p rest v]
      rw [adjListOf_cons_self p rest u hp]
      by_cases h1 : v ∈ newl <;> by_cases h2 : v ∈ p.2 <;>
        simp [h1, h2] <;> push_cast <;> ring
    · have hset : setA (p :: rest) u newl = p :: setA rest u newl := by
        cases p with
        | mk k l => simp only at hp; simp [setA, hp]
      rw [hset]
      rw [predKeys_cons p (setA rest u newl) v, predKeys_cons p rest v]
      rw [adjListOf_cons_ne p rest u hp]
      have := ih u newl hnd.2
      by_cases h2 : v ∈ p.2 <;> simp [h2] <;> push_cast at this ⊢ <;> omega

lemma degreesInit_inc_nonneg (files : List FileInfo) :
    ∀ k, 0 ≤ getD (degreesInit files).1 k := by
  have hgen : ∀ (fl : List FileInfo) (pr : DegMap × DegMap),
      (∀ k, 0 ≤ getD pr.1 k) →
      ∀ k, 0 ≤ getD (fl.foldl (fun pr f =>
        (setA pr.1 (makeId f.name) (getD pr.1 (makeId f.name)), setA pr.2 (makeId f.name) 0))
          pr).1 k := by
    intro fl
    induction fl with
    | nil => intro pr h k; exact h k
    | cons f rest ih =>
      intro pr h k
      rw [List.foldl_cons]
      apply ih
      intro k'
      by_cases hk : k' = makeId f.name
      · subst hk
        rw [getD_setA_self]
        exact h _
      · rw [getD_setA_ne _ _ _ _ (fun he => hk he.symm)]
        exact h k'
  intro k
  exact hgen files ([], []) (fun k => by simp [getD, getA]) k

lemma degreesInit_keys_nodup (files : List FileInfo) :
    (keysOf (degreesInit files).1).Nodup := by
  have hgen : ∀ (fl : List FileInfo) (pr : DegMap × DegMap),
      (keysOf pr.1).Nodup →
      (keysOf (fl.foldl (fun pr f =>
        (setA pr.1 (makeId f.name) (getD pr.1 (makeId f.name)), setA pr.2 (makeId f.name) 0))
          pr).1).Nodup := by
    intro fl
    induction fl with
    | nil => intro pr h; exact h
    | cons f rest ih =>
      intro pr h
      rw [List.foldl_cons]
      exact ih _ (keys_nodup_setA _ _ _ h)
  exact hgen files ([], []) (by simp [keysOf])

lemma getA_none_of_not_mem_keys {β : Type} (m : List (String × β)) (k : String)
    (h : k ∉ keysOf m) : getA m k = none := by
  cases hg : getA m k with
  | none => rfl
  | some v => exact absurd (getA_some_mem_keys m k v hg) h

lemma foldl_setA_entries_getA (l : List (String × Int)) :
    ∀ (m : DegMap) (k : String), (keysOf l).Nodup →
      getA (l.foldl (fun m p => setA m p.1 p.2) m) k =
        (match getA l k with
         | some v => some v
         | none => getA m k) := by
  induction l with
  | nil => intro m k _; rfl
  | cons p rest ih =>
    intro m k hnd
    simp only [keysOf, List.map_cons, List.nodup_cons] at hnd
    rw [List.foldl_cons, ih _ k hnd.2]
    by_cases hk : p.1 = k
    · subst hk
      have hnone : getA rest p.1 = none :=
        getA_none_of_not_mem_keys rest p.1 hnd.1
      rw [hnone]
      have : getA ((p.1, p.2) :: rest) p.1 = some p.2 := by simp [getA]
      have hpp : (p.1, p.2) = p := rfl
      rw [hpp] at this
      rw [this, getA_setA_self]
    · have : getA (p :: rest) k = getA rest k := by
        cases p with
        | mk a b => simp only at hk; simp [getA, hk]
      rw [this]
      cases hg : getA rest k with
      | some v => rfl
      | none => rw [getA_setA_ne _ _ _ _ hk]

lemma ensure_getD (ks : List String) :
    ∀ (m : DegMap) (k : String),
      getD (ks.foldl (fun m k => if hasA m k then m else setA m k 0) m) k = getD m k := by
  induction ks with
  | nil => intro m k; rfl
  | cons k0 rest ih =>
    intro m k
    rw [List.foldl_cons]
    by_cases hh : hasA m k0
    · rw [if_pos hh, ih]
    · rw [if_neg hh, ih]
      by_cases hk : k = k0
      · subst hk
        rw [getD_setA_self]
        have : getA m k = none := by
          cases hg : getA m k with
          | none => rfl
          | some v => simp [hasA, hg] at hh
        simp [getD, this]
      · rw [getD_setA_ne _ _ _ _ (fun he => hk he.symm)]

lemma inDegreeMapOf_getD (inc : DegMap) (adj : AdjMap) (h : (keysOf inc).Nodup) :
    ∀ k, getD (inDegreeMapOf inc adj) k = getD inc k := by
  intro k
  unfold inDegreeMapOf
  rw [ensure_getD]
  unfold getD
  rw [foldl_setA_entries_getA inc [] k h]
  cases hg : getA inc k with
  | some v => rfl
  | none => rfl

lemma edgeImportStep_inv (fs : FS) (files : List FileInfo) (fromId fromPath imp : String)
    (st : EdgeSt)
    (hncimp : resolveImport fs fromPath imp = none → headIs imp '.' = false →
      makeId ("ext_" ++ imp) ∉ files.map fileId)
    (h1 : (keysOf st.adj).Nodup)
    (h2 : ∀ p ∈ st.adj, p.2.Nodup)
    (h3 : (keysOf st.inc).Nodup)
    (h4 : ∀ v ∈ files.map fileId, ((predKeys st.adj v).length : Int) ≤ getD st.inc v)
    (h5 : ∀ u v, Line.edge u v ∈ st.lines →
      v ∈ adjListOf st.adj u ∧ v ∈ files.map fileId) :
    (keysOf (edgeImportStep fs (byResolvedPath fs files) fromId fromPath st imp).adj).Nodup ∧
    (∀ p ∈ (edgeImportStep fs (byResolvedPath fs files) fromId fromPath st imp).adj,
      p.2.Nodup) ∧
    (keysOf (edgeImportStep fs (byResolvedPath fs files) fromId fromPath st imp).inc).Nodup ∧
    (∀ v ∈ files.map fileId,
      ((predKeys (edgeImportStep fs (byResolvedPath fs files) fromId fromPath st imp).adj
        v).length : Int) ≤
      getD (edgeImportStep fs (byResolvedPath fs files) fromId fromPath st imp).inc v) ∧
    (∀ u v, Line.edge u v ∈
        (edgeImportStep fs (byResolvedPath fs files) fromId fromPath st imp).lines →
      v ∈ adjListOf (edgeImportStep fs (byResolvedPath fs files) fromId fromPath st imp).adj
        u ∧
      v ∈ files.map fileId) := by
  have hal : (getA st.adj fromId).getD [] = adjListOf st.adj fromId := rfl
  cases hr : resolveImport fs fromPath imp with
  | some resolved =>
    cases hb : getA (byResolvedPath fs files) (pathResolveOne fs.cwd resolved) with
    | some target =>
      rw [edgeImportStep_eq_file fs _ fromId fromPath st imp resolved target hr hb]
      dsimp only
      rw [hal]
      have htid : makeId target.file.name ∈ files.map fileId :=
        nodesOf_name_mem files target (byRes_target_mem fs files _ target hb)
      refine ⟨keys_nodup_setA _ _ _ h1, ?_, keys_nodup_setA _ _ _ h3, ?_, ?_⟩
      · intro p hp
        rcases mem_setA _ _ _ _ hp with hold | hnew
        · exact h2 p hold
        · rw [hnew]
          exact addOnce_nodup _ _ (adjListOf_nodup st.adj h2 fromId)
      · intro v hv
        have hpk := predKeys_length_setA v st.adj fromId
          (addOnce (adjListOf st.adj fromId) (makeId target.file.name)) h1
        by_cases hvt : v = makeId target.file.name
        · have h4v := h4 v hv
          rw [hvt] at hpk h4v ⊢
          rw [getD_setA_self]
          have hmem : makeId target.file.name ∈
              addOnce (adjListOf st.adj fromId) (makeId target.file.name) :=
            (mem_addOnce_iff _ _ _).mpr (Or.inr rfl)
          rw [if_pos hmem] at hpk
          by_cases hvl : makeId target.file.name ∈ adjListOf st.adj fromId
          · rw [if_pos hvl] at hpk
            omega
          · rw [if_neg hvl] at hpk
            omega
        · rw [getD_setA_ne _ _ _ _ (fun he => hvt he.symm)]
          have hiff : (v ∈ addOnce (adjListOf st.adj fromId) (makeId target.file.name)) ↔
              v ∈ adjListOf st.adj fromId := by
            rw [mem_addOnce_iff]
            constructor
            · rintro (h | h)
              · exact h
              · exact absurd h hvt
            · exact Or.inl
          have h4v := h4 v hv
          by_cases hvl : v ∈ adjListOf st.adj fromId
          · rw [if_pos (hiff.mpr hvl), if_pos hvl] at hpk
            omega
          · rw [if_neg (fun hc => hvl (hiff.mp hc)), if_neg hvl] at hpk
            omega
      · intro u v hline
        rcases List.mem_append.mp hline with hold | hnew
        · obtain ⟨hadj, hfid⟩ := h5 u v hold
          refine ⟨?_, hfid⟩
          by_cases hu : u = fromId
          · subst hu
            rw [adjListOf_setA_self]
            exact (mem_addOnce_iff _ _ _).mpr (Or.inl hadj)
          · rw [adjListOf_setA_ne _ _ _ _ (fun he => hu he.symm)]
            exact hadj
        · simp only [List.mem_singleton, Line.edge.injEq] at hnew
          obtain ⟨rfl, rfl⟩ := hnew
          refine ⟨?_, htid⟩
          rw [adjListOf_setA_self]
          exact (mem_addOnce_iff _ _ _).mpr (Or.inr rfl)
    | none =>
      rw [edgeImportStep_eq_skip fs _ fromId fromPath st imp resolved hr hb]
      exact ⟨h1, h2, h3, h4, h5⟩
  | none =>
    by_cases hdot : headIs imp '.'
    · rw [edgeImportStep_eq_relmiss fs _ fromId fromPath st imp hr hdot]
      exact ⟨h1, h2, h3, h4, h5⟩
    · rw [edgeImportStep_eq_ext fs _ fromId fromPath st imp hr (by simpa using hdot)]
      dsimp only
      rw [hal]
      have hext : makeId ("ext_" ++ imp) ∉ files.map fileId :=
        hncimp hr (by simpa using hdot)
      refine ⟨keys_nodup_setA _ _ _ h1, ?_, h3, ?_, ?_⟩
      · intro p hp
        rcases mem_setA _ _ _ _ hp with hold | hnew
        · exact h2 p hold
        · rw [hnew]
          exact addOnce_nodup _ _ (adjListOf_nodup st.adj h2 fromId)
      · intro v hv
        have hvt : v ≠ makeId ("ext_" ++ imp) := fun he => hext (he ▸ hv)
        have hpk := predKeys_length_setA v st.adj fromId
          (addOnce (adjListOf st.adj fromId) (makeId ("ext_" ++ imp))) h1
        have hiff : (v ∈ addOnce (adjListOf st.adj fromId) (makeId ("ext_" ++ imp))) ↔
            v ∈ adjListOf st.adj fromId := by
          rw [mem_addOnce_iff]
          constructor
          · rintro (h | h)
            · exact h
            · exact absurd h hvt
          · exact Or.inl
        have h4v := h4 v hv
        by_cases hvl : v ∈ adjListOf st.adj fromId
        · rw [if_pos (hiff.mpr hvl), if_pos hvl] at hpk
          omega
        · rw [if_neg (fun hc => hvl (hiff.mp hc)), if_neg hvl] at hpk
          omega
      · intro u v hline
        rcases List.mem_append.mp hline with hold | hnew
        · obtain ⟨hadj, hfid⟩ := h5 u v hold
          refine ⟨?_, hfid⟩
          by_cases hu : u = fromId
          · subst hu
            rw [adjListOf_setA_self]
            exact (mem_addOnce_iff _ _ _).mpr (Or.inl hadj)
          · rw [adjListOf_setA_ne _ _ _ _ (fun he => hu he.symm)]
            exact hadj
        · simp at hnew

lemma foldl_importStep_inv (fs : FS) (files : List FileInfo) (fromId fromPath : String) :
    ∀ (imps : List String) (st : EdgeSt),
      (∀ imp ∈ imps, resolveImport fs fromPath imp = none → headIs imp '.' = false →
        makeId ("ext_" ++ imp) ∉ files.map fileId) →
      (keysOf st.adj).Nodup →
      (∀ p ∈ st.adj, p.2.Nodup) →
      (keysOf st.inc).Nodup →
      (∀ v ∈ files.map fileId, ((predKeys st.adj v).length : Int) ≤ getD st.inc v) →
      (∀ u v, Line.edge u v ∈ st.lines →
        v ∈ adjListOf st.adj u ∧ v ∈ files.map fileId) →
      (keysOf (imps.foldl (edgeImportStep fs (byResolvedPath fs files) fromId fromPath)
        st).adj).Nodup ∧
      (∀ p ∈ (imps.foldl (edgeImportStep fs (byResolvedPath fs files) fromId fromPath)
        st).adj, p.2.Nodup) ∧
      (keysOf (imps.foldl (edgeImportStep fs (byResolvedPath fs files) fromId fromPath)
        st).inc).Nodup ∧
      (∀ v ∈ files.map fileId,
        ((predKeys (imps.foldl (edgeImportStep fs (byResolvedPath fs files) fromId fromPath)
          st).adj v).length : Int) ≤
        getD (imps.foldl (edgeImportStep fs (byResolvedPath fs files) fromId fromPath)
          st).inc v) ∧
      (∀ u v, Line.edge u v ∈
          (imps.foldl (edgeImportStep fs (byResolvedPath fs files) fromId fromPath) st).lines →
        v ∈ adjListOf (imps.foldl (edgeImportStep fs (byResolvedPath fs files) fromId fromPath)
          st).adj u ∧
        v ∈ files.map fileId) := by
  intro imps
  induction imps with
  | nil => intro st _ h1 h2 h3 h4 h5; exact ⟨h1, h2, h3, h4, h5⟩
  | cons imp rest ih =>
    intro st hnc h1 h2 h3 h4 h5
    rw [List.foldl_cons]
    have hstep := edgeImportStep_inv fs files fromId fromPath imp st
      (hnc imp (List.mem_cons_self _ _)) h1 h2 h3 h4 h5
    exact ih _ (fun i hi => hnc i (List.mem_cons_of_mem _ hi))
      hstep.1 hstep.2.1 hstep.2.2.1 hstep.2.2.2.1 hstep.2.2.2.2

lemma edgeNodeStep_inv (fs : FS) (files : List FileInfo) (st : EdgeSt) (n : NodeRec)
    (hnc : ∀ imp ∈ n.extr.imports, resolveImport fs n.file.path imp = none →
      headIs imp '.' = false → makeId ("ext_" ++ imp) ∉ files.map fileId)
    (h1 : (keysOf st.adj).Nodup)
    (h2 : ∀ p ∈ st.adj, p.2.Nodup)
    (h3 : (keysOf st.inc).Nodup)
    (h4 : ∀ v ∈ files.map fileId, ((predKeys st.adj v).length : Int) ≤ getD st.inc v)
    (h5 : ∀ u v, Line.edge u v ∈ st.lines →
      v ∈ adjListOf st.adj u ∧ v ∈ files.map fileId) :
    (keysOf (edgeNodeStep fs (byResolvedPath fs files) st n).adj).Nodup ∧
    (∀ p ∈ (edgeNodeStep fs (byResolvedPath fs files) st n).adj, p.2.Nodup) ∧
    (keysOf (edgeNodeStep fs (byResolvedPath fs files) st n).inc).Nodup ∧
    (∀ v ∈ files.map fileId,
      ((predKeys (edgeNodeStep fs (byResolvedPath fs files) st n).adj v).length : Int) ≤
      getD (edgeNodeStep fs (byResolvedPath fs files) st n).inc v) ∧
    (∀ u v, Line.edge u v ∈ (edgeNodeStep fs (byResolvedPath fs files) st n).lines →
      v ∈ adjListOf (edgeNodeStep fs (byResolvedPath fs files) st n).adj u ∧
      v ∈ files.map fileId) := by
  simp only [edgeNodeStep]
  by_cases hh : hasA st.adj (makeId n.file.name)
  · rw [if_pos hh]
    exact foldl_importStep_inv fs files _ _ _ _ hnc h1 h2 h3 h4 h5
  · rw [if_neg hh]
    have hnone : getA st.adj (makeId n.file.name) = none := by
      cases hg : getA st.adj (makeId n.file.name) with
      | none => rfl
      | some l => simp [hasA, hg] at hh
    have hempty : adjListOf st.adj (makeId n.file.name) = [] := by
      unfold adjListOf
      rw [hnone]
      rfl
    apply foldl_importStep_inv fs files _ _ _ _ hnc
    · exact keys_nodup_setA _ _ _ h1
    · intro p hp
      rcases mem_setA _ _ _ _ hp with hold | hnew
      · exact h2 p hold
      · rw [hnew]
        exact List.nodup_nil
    · exact h3
    · intro v hv
      show ((predKeys (setA st.adj (makeId n.file.name) []) v).length : Int) ≤ getD st.inc v
      have hpk := predKeys_length_setA v st.adj (makeId n.file.name) [] h1
      rw [hempty] at hpk
      simp only [List.not_mem_nil, if_false] at hpk
      have := h4 v hv
      omega
    · intro u v hline
      obtain ⟨hadj, hfid⟩ := h5 u v hline
      refine ⟨?_, hfid⟩
      by_cases hu : u = makeId n.file.name
      · rw [hu] at hadj
        rw [hempty] at hadj
        simp at hadj
      · rw [adjListOf_setA_ne _ _ _ _ (fun he => hu he.symm)]
        exact hadj

lemma edgePhase_inv (fs : FS) (files : List FileInfo)
    (hnc : ∀ n ∈ nodesOf files, ∀ imp ∈ n.extr.imports,
      resolveImport fs n.file.path imp = none → headIs imp '.' = false →
      makeId ("ext_" ++ imp) ∉ files.map fileId) :
    (keysOf (edgePhase fs files).adj).Nodup ∧
    (∀ p ∈ (edgePhase fs files).adj, p.2.Nodup) ∧
    (keysOf (edgePhase fs files).inc).Nodup ∧
    (∀ v ∈ files.map fileId,
      ((predKeys (edgePhase fs files).adj v).length : Int) ≤ getD (edgePhase fs files).inc v) ∧
    (∀ u v, Line.edge u v ∈ (edgePhase fs files).lines →
      v ∈ adjListOf (edgePhase fs files).adj u ∧ v ∈ files.map fileId) := by
  have hgen : ∀ (ns : List NodeRec), (∀ n ∈ ns, n ∈ nodesOf files) →
      ∀ (st : EdgeSt),
      (keysOf st.adj).Nodup →
      (∀ p ∈ st.adj, p.2.Nodup) →
      (keysOf st.inc).Nodup →
      (∀ v ∈ files.map fileId, ((predKeys st.adj v).length : Int) ≤ getD st.inc v) →
      (∀ u v, Line.edge u v ∈ st.lines →
        v ∈ adjListOf st.adj u ∧ v ∈ files.map fileId) →
      (keysOf ((ns.foldl (edgeNodeStep fs (byResolvedPath fs files)) st)).adj).Nodup ∧
      (∀ p ∈ ((ns.foldl (edgeNodeStep fs (byResolvedPath fs files)) st)).adj, p.2.Nodup) ∧
      (keysOf ((ns.foldl (edgeNodeStep fs (byResolvedPath fs files)) st)).inc).Nodup ∧
      (∀ v ∈ files.map fileId,
        ((predKeys ((ns.foldl (edgeNodeStep fs (byResolvedPath fs files)) st)).adj
          v).length : Int) ≤
        getD ((ns.foldl (edgeNodeStep fs (byResolvedPath fs files)) st)).inc v) ∧
      (∀ u v, Line.edge u v ∈
          ((ns.foldl (edgeNodeStep fs (byResolvedPath fs files)) st)).lines →
        v ∈ adjListOf ((ns.foldl (edgeNodeStep fs (byResolvedPath fs files)) st)).adj u ∧
        v ∈ files.map fileId) := by
    intro ns
    induction ns with
    | nil => intro _ st h1 h2 h3 h4 h5; exact ⟨h1, h2, h3, h4, h5⟩
    | cons n rest ih =>
      intro hmem st h1 h2 h3 h4 h5
      rw [List.foldl_cons]
      have hstep := edgeNodeStep_inv fs files st n
        (hnc n (hmem n (List.mem_cons_self _ _))) h1 h2 h3 h4 h5
      exact ih (fun n' hn' => hmem n' (List.mem_cons_of_mem _ hn')) _
        hstep.1 hstep.2.1 hstep.2.2.1 hstep.2.2.2.1 hstep.2.2.2.2
  unfold edgePhase
  apply hgen (nodesOf files) (fun n hn => hn)
  · simp [keysOf]
  · intro p hp
    simp at hp
  · exact degreesInit_keys_nodup files
  · intro v _
    show ((predKeys ([] : AdjMap) v).length : Int) ≤ getD (degreesInit files).1 v
    have h0 : (predKeys ([] : AdjMap) v).length = 0 := rfl
    rw [h0]
    have := degreesInit_inc_nonneg files v
    omega
  · intro u v hline
    simp at hline

lemma kahnAux_invB (adj : AdjMap) (inDeg0 : DegMap)
    (hadjnd : (keysOf adj).Nodup)
    (hvals : ∀ p ∈ adj, p.2.Nodup)
    (hdeg : ∀ v ∈ keysOf inDeg0,
      ((predKeys adj v).length : Int) ≤ getD inDeg0 v) :
    ∀ (fuel : Nat) (q : List String) (m : DegMap) (acc : List String),
      (acc ++ q).Nodup →
      (∀ id ∈ acc ++ q, getD m id ≤ 0) →
      (∀ v, getD m v = getD inDeg0 v - (predCountIn adj acc v : Int)) →
      (∀ v ∈ q, ∀ u, v ∈ adjListOf adj u → u ∈ acc) →
      (∀ v ∈ acc, ∀ u, v ∈ adjListOf adj u →
        u ∈ acc ∧ acc.indexOf u < acc.indexOf v) →
      ∀ v ∈ kahnAux adj fuel q m acc, ∀ u, v ∈ adjListOf adj u →
        u ∈ kahnAux adj fuel q m acc ∧
        (kahnAux adj fuel q m acc).indexOf u < (kahnAux adj fuel q m acc).indexOf v := by
  intro fuel
  induction fuel with
  | zero => intro q m acc _ _ _ _ h6; exact h6
  | succ n ih =>
    intro q m acc h1 h2 h3 h5 h6
    cases q with
    | nil => exact h6
    | cons cur qrest =>
      rw [kahnAux_succ_cons]
      have hre : acc ++ cur :: qrest = (acc ++ [cur]) ++ qrest := by
        rw [List.append_assoc]
        rfl
      have hcurnotacc : cur ∉ acc := by
        intro hmem
        rw [hre] at h1
        have hnd := h1
        rw [List.nodup_append] at hnd
        have hnd2 := hnd.1
        rw [List.nodup_append] at hnd2
        exact hnd2.2.2 hmem (List.mem_singleton_self cur)
      have h6' : ∀ v ∈ acc ++ [cur], ∀ u, v ∈ adjListOf adj u →
          u ∈ acc ++ [cur] ∧ (acc ++ [cur]).indexOf u < (acc ++ [cur]).indexOf v := by
        intro v hv u hadju
        rcases List.mem_append.mp hv with hvacc | hvcur
        · obtain ⟨huacc, hidx⟩ := h6 v hvacc u hadju
          refine ⟨List.mem_append_left _ huacc, ?_⟩
          rw [List.indexOf_append_of_mem huacc, List.indexOf_append_of_mem hvacc]
          exact hidx
        · simp only [List.mem_singleton] at hvcur
          subst hvcur
          have hucur : u ∈ acc := h5 v (List.mem_cons_self _ _) u hadju
          refine ⟨List.mem_append_left _ hucur, ?_⟩
          rw [List.indexOf_append_of_mem hucur,
            List.indexOf_append_of_not_mem hcurnotacc]
          have hlt : List.indexOf u acc < acc.length := List.indexOf_lt_length.mpr hucur
          have h0 : List.indexOf v [v] = 0 := List.indexOf_cons_self v []
          omega
      cases hadjcur : getA adj cur with
      | none =>
        have hadjcur_list : adjListOf adj cur = [] := by
          unfold adjListOf
          rw [hadjcur]
          rfl
        apply ih qrest m (acc ++ [cur])
        · rw [← hre]
          exact h1
        · intro id hid
          apply h2
          rw [hre]
          exact hid
        · intro v
          rw [h3 v, predCountIn_append_one, hadjcur_list]
          simp
        · intro v hv u hu
          exact List.mem_append_left _ (h5 v (List.mem_cons_of_mem _ hv) u hu)
        · exact h6'
      | some ns =>
        have hnsnd : ns.Nodup := hvals (cur, ns) (getA_mem _ _ _ hadjcur)
        obtain ⟨hq', hm'⟩ := decNeighbors_spec ns m qrest hnsnd
        have hadjcur_list : adjListOf adj cur = ns := by
          unfold adjListOf
          rw [hadjcur]
          rfl
        have hI3 : ∀ v, getD (decNeighbors ns m qrest).1 v =
            getD inDeg0 v - (predCountIn adj (acc ++ [cur]) v : Int) := by
          intro v
          rw [hm' v, h3 v, predCountIn_append_one, hadjcur_list]
          by_cases hvns : v ∈ ns
          · rw [if_pos hvns, if_pos hvns]
            push_cast
            ring
          · rw [if_neg hvns, if_neg hvns]
            push_cast
            ring
        have hpushmem : ∀ p ∈ ns.filter (fun nb => getD m nb - 1 == 0),
            p ∈ ns ∧ getD m p = 1 := by
          intro p hp
          refine ⟨List.mem_of_mem_filter hp, ?_⟩
          have hb := List.of_mem_filter hp
          have : getD m p - 1 = 0 := by
            have := eq_of_beq hb
            exact this
          omega
        have hpushfresh : ∀ p ∈ ns.filter (fun nb => getD m nb - 1 == 0),
            p ∉ acc ++ cur :: qrest := by
          intro p hp hmem
          have hv := h2 p hmem
          have := (hpushmem p hp).2
          omega
        have hacc'nd : (acc ++ [cur]).Nodup := by
          rw [hre] at h1
          exact h1.of_append_left
        have hpushpred : ∀ p ∈ ns.filter (fun nb => getD m nb - 1 == 0),
            ∀ u, p ∈ adjListOf adj u → u ∈ acc ++ [cur] := by
          intro p hp u hu
          obtain ⟨hpns, hpval⟩ := hpushmem p hp
          have heq : getD inDeg0 p = 1 + (predCountIn adj acc p : Int) := by
            have := h3 p
            omega
          have hpkeys : p ∈ keysOf inDeg0 :=
            getD_ne_zero_mem_keys inDeg0 p (by omega)
          have hdegp := hdeg p hpkeys
          have hcnt : predCountIn adj (acc ++ [cur]) p = predCountIn adj acc p + 1 := by
            rw [predCountIn_append_one, hadjcur_list, if_pos hpns]
          have hlen : (predKeys adj p).length ≤
              ((acc ++ [cur]).filter (fun u => decide (p ∈ adjListOf adj u))).length := by
            have hcnt' : ((acc ++ [cur]).filter
                (fun u => decide (p ∈ adjListOf adj u))).length =
                predCountIn adj (acc ++ [cur]) p := rfl
            rw [hcnt', hcnt]
            omega
          have hall := mem_acc_of_filter_length_ge (acc ++ [cur]) (predKeys adj p)
            (fun u => decide (p ∈ adjListOf adj u)) hacc'nd (predKeys_nodup adj p hadjnd)
            (fun x _ hx => pred_mem_predKeys adj x p (of_decide_eq_true hx)) hlen
          exact hall u (pred_mem_predKeys adj u p hu)
        apply ih ((decNeighbors ns m qrest).2) ((decNeighbors ns m qrest).1) (acc ++ [cur])
        · rw [hq', ← List.append_assoc]
          rw [List.nodup_append]
          refine ⟨by rw [← hre]; exact h1, hnsnd.filter _, ?_⟩
          intro a ha hb
          exact hpushfresh a hb (by rw [hre]; exact ha)
        · intro id hid
          rw [hq'] at hid
          rw [← List.append_assoc] at hid
          rcases List.mem_append.mp hid with hold | hpush
          · rw [hm' id]
            have hold' : id ∈ acc ++ cur :: qrest := by
              rw [hre]
              exact hold
            have := h2 id hold'
            by_cases hidns : id ∈ ns
            · rw [if_pos hidns]
              omega
            · rw [if_neg hidns]
              omega
          · rw [hm' id]
            obtain ⟨hidns, hidval⟩ := hpushmem id hpush
            rw [if_pos hidns]
            omega
        · exact hI3
        · intro v hv u hu
          rw [hq'] at hv
          rcases List.mem_append.mp hv with hold | hpush
          · exact List.mem_append_left _ (h5 v (List.mem_cons_of_mem _ hold) u hu)
          · exact hpushpred v hpush u hu
        · exact h6'

lemma mem_importEdgePairs (fs : FS) (files : List FileInfo) (u v : String) :
    (u, v) ∈ importEdgePairs fs files ↔ Line.edge u v ∈ (edgePhase fs files).lines := by
  unfold importEdgePairs
  rw [List.mem_filterMap]
  constructor
  · rintro ⟨l, hl, hm⟩
    cases l with
    | edge u' v' =>
      simp at hm
      rw [hm.1, hm.2] at hl
      exact hl
    | header => simp at hm
    | subgraphOpen a b => simp at hm
    | fnNode a b => simp at hm
    | classNode a b => simp at hm
    | fallbackNode a b c => simp at hm
    | subgraphEnd => simp at hm
    | extEdge a b c => simp at hm
    | dashed a b => simp at hm
    | startDecl => simp at hm
    | endDecl => simp at hm
    | startEdge a => simp at hm
    | endEdge a => simp at hm
  · intro h
    exact ⟨Line.edge u v, h, rfl⟩

lemma kahnOrder_precedence (fs : FS) (files : List FileInfo)
    (hnc : ∀ n ∈ nodesOf files, ∀ imp ∈ n.extr.imports,
      resolveImport fs n.file.path imp = none → headIs imp '.' = false →
      makeId ("ext_" ++ imp) ∉ files.map fileId) :
    ∀ v ∈ kahnOrder fs files, ∀ u, v ∈ adjListOf (edgePhase fs files).adj u →
      u ∈ kahnOrder fs files ∧
      (kahnOrder fs files).indexOf u < (kahnOrder fs files).indexOf v := by
  obtain ⟨hA1, hA2, hA3, hA4, hA5⟩ := edgePhase_inv fs files hnc
  have hm0nd := inDegreeMapOf_keys_nodup (edgePhase fs files).inc (edgePhase fs files).adj
  have hdeg0 : ∀ v ∈ keysOf (inDegreeMapOf (edgePhase fs files).inc (edgePhase fs files).adj),
      ((predKeys (edgePhase fs files).adj v).length : Int) ≤
        getD (inDegreeMapOf (edgePhase fs files).inc (edgePhase fs files).adj) v := by
    intro v hv
    rw [inDegreeMapOf_getD _ _ hA3]
    apply hA4
    rcases (inDegreeMapOf_keys_mem _ _ v).mp hv with h | h
    · exact ((edgePhase_keys fs files).1 v).mp h
    · exact (edgePhase_keys fs files).2 v h
  unfold kahnOrder
  apply kahnAux_invB (edgePhase fs files).adj
    (inDegreeMapOf (edgePhase fs files).inc (edgePhase fs files).adj) hA1 hA2 hdeg0
  · simpa using seedsOf_nodup _ hm0nd
  · intro id hid
    rw [List.nil_append] at hid
    rw [seedsOf_val _ hm0nd id hid]
  · intro v
    have h0 : predCountIn (edgePhase fs files).adj [] v = 0 := rfl
    rw [h0]
    push_cast
    ring
  · intro v hv u hu
    exfalso
    have hval := seedsOf_val _ hm0nd v hv
    have hkeys := seedsOf_mem_keys _ v hv
    have hle := hdeg0 v hkeys
    rw [hval] at hle
    have hup := pred_mem_predKeys _ u v hu
    have hpos : 0 < (predKeys (edgePhase fs files).adj v).length :=
      List.length_pos.mpr (fun he => by rw [he] at hup; simp at hup)
    omega
  · intro v hv
    simp at hv

lemma fallbackAppend_noop :
    ∀ (files : List FileInfo) (acc : List String),
      (∀ f ∈ files, makeId f.name ∈ acc) → fallbackAppend files acc = acc := by
  intro files
  induction files with
  | nil => intro acc _; rfl
  | cons f rest ih =>
    intro acc h
    show fallbackAppend rest _ = acc
    rw [if_pos (h f (List.mem_cons_self _ _))]
    exact ih acc (fun f' hf' => h f' (List.mem_cons_of_mem _ hf'))

lemma backbone_eq_kahn (fs : FS) (files : List FileInfo)
    (hall : ∀ f ∈ files, fileId f ∈ kahnOrder fs files) :
    backboneOrder fs files = kahnOrder fs files := by
  unfold backboneOrder
  by_cases hlt : (kahnOrder fs files).length < files.length
  · rw [if_pos hlt]
    exact fallbackAppend_noop files _ (fun f hf => hall f hf)
  · rw [if_neg hlt]

/-- C7 (amended): whenever the Kahn phase covers every file node (no
fallback needed) and no external-node identifier collides with a file
identifier, the backbone is consistent with the resolved import graph:
every emitted file-to-file edge's source identifier precedes its target
identifier in the backbone order.  Acyclicity of the import graph alone
does not suffice (see the counterexample: a duplicated import inflates the
recorded in-degree, the Kahn phase stalls, and the fallback appends the
remaining files in collection order, which can put an importer
after its import even in an acyclic graph). -/
theorem c7_amended_backbone_consistency (fs : FS) (files : List FileInfo)
    (hall : ∀ f ∈ files, fileId f ∈ kahnOrder fs files)
    (hnc : ∀ n ∈ nodesOf files, ∀ imp ∈ n.extr.imports,
      resolveImport fs n.file.path imp = none → headIs imp '.' = false →
      makeId ("ext_" ++ imp) ∉ files.map fileId) :
    ∀ u v, (u, v) ∈ importEdgePairs fs files →
      (backboneOrder fs files).indexOf u < (backboneOrder fs files).indexOf v := by
  intro u v hedge
  rw [backbone_eq_kahn fs files hall]
  have hline := (mem_importEdgePairs fs files u v).mp hedge
  obtain ⟨hadj, hvfid⟩ :=
    (edgePhase_inv fs files hnc).2.2.2.2 u v hline
  obtain ⟨f, hf, hfe⟩ := List.mem_map.mp hvfid
  have hvk : v ∈ kahnOrder fs files := hfe ▸ hall f hf
  exact (kahnOrder_precedence fs files hnc v hvk u hadj).2

/-- C7 counterexample: with `a.ts` empty, `b.ts` importing `./a` and
`c.ts` importing `./b` twice, the resolved import graph is acyclic, the
edge from `b`'s node to `a`'s node is emitted, yet the backbone places
`b_ts` after `a_ts`: the duplicated import leaves `b`'s recorded in-degree
positive, Kahn stalls after `c_ts`, and the fallback appends `a_ts` before
`b_ts` in collection order. -/
theorem c7_counterexample :
    hasCycle (importEdgePairs fsCex [cexA, cexB, cexC]) = false ∧
    ("b_ts", "a_ts") ∈ importEdgePairs fsCex [cexA, cexB, cexC] ∧
    ¬ ((backboneOrder fsCex [cexA, cexB, cexC]).indexOf "b_ts" <
       (backboneOrder fsCex [cexA, cexB, cexC]).indexOf "a_ts") := by
  refine ⟨by decide, by decide, by decide⟩

/-- Witness for C7's amended theorem on Scenario B: `a.ts` importing `./b`
beside `b.ts` yields exactly one edge from `a`'s node to `b`'s node and
the backbone places `a` before `b`. -/
theorem c7_amended_witness :
    (importEdgePairs fsAB [fileScA, fileScB]).count ("a_ts", "b_ts") = 1 ∧
    ("a_ts", "b_ts") ∈ importEdgePairs fsAB [fileScA, fileScB] ∧
    (backboneOrder fsAB [fileScA, fileScB]).indexOf "a_ts" <
      (backboneOrder fsAB [fileScA, fileScB]).indexOf "b_ts" :=
  ⟨by decide, by decide,
   c7_amended_backbone_consistency fsAB [fileScA, fileScB] (by decide) (by decide)
     "a_ts" "b_ts" (by decide)⟩

end FlowChart
